import Mathlib

/-!
Verification of the Connect-Four engine (game_logic.rs, game.rs).

The Rust sources are shallowly embedded: `Vec<Vec<Disc>>` boards become
`List (List Disc)`, indexing (which panics when out of bounds in Rust) is
modelled with `getD`-style total lookups and every theorem carries the
bounds hypotheses under which the Rust code indexes in bounds, and the
`f32` evaluation values are modelled by `EVal` (`±∞` or an exact integer):
every finite evaluation the program produces is a difference of window
counts, an integer of magnitude far below `2^24`, so `f32` arithmetic on
these values is exact and `EVal` mirrors it bit-for-bit.
-/

namespace ConnectFour

/-- The two players (`Player` in game_logic.rs). -/
inductive Player where
  | P1 : Player
  | P2 : Player
deriving DecidableEq, Repr

/-- Next player to move (`next_turn` in game_logic.rs). -/
def next_turn : Player → Player
  | Player.P1 => Player.P2
  | Player.P2 => Player.P1

/-- A board cell: empty or a player's disc (`type Disc = Option<Player>`). -/
abbrev Disc := Option Player

/-- Game outcome (`GameResult` in game_logic.rs). -/
inductive GameResult where
  | Win : Player → GameResult
  | Draw : GameResult
deriving DecidableEq, Repr

/-- A move: target cell coordinates (`Move` in game_logic.rs). -/
structure Move where
  row : Nat
  col : Nat
deriving DecidableEq, Repr

/-- Model of the `f32` evaluation values produced by the engine: minus
infinity, plus infinity, or a finite value that is always an exact
integer (a difference of window counts). -/
inductive EVal where
  | ninf : EVal
  | fin : Int → EVal
  | pinf : EVal
deriving DecidableEq, Repr

namespace EVal

/-- Strict `<` on evaluation values, mirroring `f32` comparison on the
values that occur (no NaN ever arises). -/
def blt : EVal → EVal → Bool
  | ninf, ninf => false
  | ninf, _ => true
  | fin _, ninf => false
  | fin a, fin b => a < b
  | fin _, pinf => true
  | pinf, _ => false

/-- Model of `f32::max` on NaN-free values: `if a < b { b } else { a }`. -/
def fmax (a b : EVal) : EVal := if a.blt b then b else a

/-- Model of `f32::min` on NaN-free values: `if b < a { b } else { a }`. -/
def fmin (a b : EVal) : EVal := if b.blt a then b else a

/-- Adding a finite (exact-integer) `f32` to an evaluation value; the
engine only ever adds the finite delta `fast_num_wins` to a cached
evaluation, so the infinite cases absorb and no NaN can appear. -/
def addFin : EVal → Int → EVal
  | ninf, _ => ninf
  | pinf, _ => pinf
  | fin a, z => fin (a + z)

end EVal

/-- Game state (`GameState` in game_logic.rs): player to move, the board
as a vector of rows, and the configured dimensions. -/
structure GameState where
  turn : Player
  board : List (List Disc)
  rows : Nat
  cols : Nat
deriving DecidableEq, Repr

/-- Board lookup `gs.board[row][col]`; Rust panics out of bounds, the
model returns `none` there and every theorem keeps indices in bounds. -/
def cellAt (gs : GameState) (r c : Nat) : Disc :=
  (gs.board.getD r []).getD c none

/-- Writing one cell of the board (the `copy.board[row][col] = ...`
update inside `play`). -/
def setCell (b : List (List Disc)) (r c : Nat) (d : Disc) : List (List Disc) :=
  b.set r ((b.getD r []).set c d)

/-- Dimension well-formedness: the `rows`/`cols` fields describe the
actual board shape. -/
def WF (gs : GameState) : Prop :=
  gs.board.length = gs.rows ∧ ∀ row ∈ gs.board, row.length = gs.cols

/-- The `play` function of game_logic.rs: fails on an occupied target
cell or on a floating placement, otherwise returns the updated copy. -/
def play (mov : Move) (gs : GameState) : Option GameState :=
  match cellAt gs mov.row mov.col with
  | none =>
      if mov.row ≠ gs.rows - 1 ∧ cellAt gs (mov.row + 1) mov.col = none then
        none
      else
        some { turn := next_turn gs.turn,
               board := setCell gs.board mov.row mov.col (some gs.turn),
               rows := gs.rows, cols := gs.cols }
  | some _ => none

/-- The `legal_in_col` function: scan the column from the bottom row
upward and return the first empty cell. -/
def legal_in_col (gs : GameState) (col : Nat) : Option Move :=
  ((List.range gs.rows).reverse.find? fun r => cellAt gs r col = none).map
    fun r => { row := r, col := col }

/-- The `get_legal` function: the legal move of each column, ascending. -/
def get_legal (gs : GameState) : List Move :=
  (List.range gs.cols).filterMap (legal_in_col gs)

/-- The `is_full` check: no cell of the board is empty. -/
def is_full (gs : GameState) : Bool :=
  !(gs.board.flatten.any fun d => d.isNone)

/-- The `placed_discs_board` count: number of occupied cells. -/
def placed_discs_board (b : List (List Disc)) : Nat :=
  (b.flatten.filter fun d => d.isSome).length

/-- The `placed_discs` count of a state. -/
def placed_discs (gs : GameState) : Nat :=
  placed_discs_board gs.board

/-- Whether a cell counts in the full-board scans (`Some(p) if p ==
player`, and `None if possible_wins`). -/
def countsCell (player : Player) (possible : Bool) : Disc → Bool
  | some p => p == player
  | none => possible

/-- One step of the scan loop shared by the four `win_in_*` functions:
extend or reset the `in_a_row` counter, and on reaching 4 record a win
and fall back to 3. -/
def scanStep (player : Player) (possible : Bool) (st : Nat × Int) (d : Disc) : Nat × Int :=
  let r := if countsCell player possible d then st.1 + 1 else 0
  if r == 4 then (3, st.2 + 1) else (r, st.2)

/-- The scan loop of the `win_in_*` functions over one line of cells. -/
def scanLine (player : Player) (possible : Bool) (cells : List Disc) : Int :=
  (cells.foldl (scanStep player possible) (0, 0)).2

/-- Coordinates of row `r` as scanned by `win_in_row`. -/
def rowLine (cols r : Nat) : List (Nat × Nat) :=
  (List.range cols).map fun c => (r, c)

/-- Coordinates of column `c` as scanned by `win_in_col`. -/
def colLine (rows c : Nat) : List (Nat × Nat) :=
  (List.range rows).map fun r => (r, c)

/-- Coordinates of the top-left-to-bottom-right diagonal from `s`, as
scanned by `win_in_diag_tl_to_br`. -/
def diagDownLine (rows cols : Nat) (s : Nat × Nat) : List (Nat × Nat) :=
  (List.range (min (rows - s.1) (cols - s.2))).map fun o => (s.1 + o, s.2 + o)

/-- Coordinates of the top-right-to-bottom-left diagonal from `s`, as
scanned by `win_in_diag_tr_to_bl`. -/
def diagUpLine (rows : Nat) (s : Nat × Nat) : List (Nat × Nat) :=
  (List.range (min (rows - s.1) (s.2 + 1))).map fun o => (s.1 + o, s.2 - o)

/-- Start cells of `win_in_diag_tl_to_br`: left edge `0..rows-3`, then
top edge `1..cols-3`. -/
def diagDownStarts (rows cols : Nat) : List (Nat × Nat) :=
  ((List.range (rows - 3)).map fun r => (r, 0)) ++
    ((List.range' 1 (cols - 3 - 1)).map fun c => (0, c))

/-- Start cells of `win_in_diag_tr_to_bl`: right edge `0..rows-3`, then
top edge `3..cols-1`. -/
def diagUpStarts (rows cols : Nat) : List (Nat × Nat) :=
  ((List.range (rows - 3)).map fun r => (r, cols - 1)) ++
    ((List.range' 3 (cols - 1 - 3)).map fun c => (0, c))

/-- Reads a line of coordinates off the board. -/
def lineCells (gs : GameState) (line : List (Nat × Nat)) : List Disc :=
  line.map fun rc => cellAt gs rc.1 rc.2

/-- The `win_in_row` scan of game_logic.rs. -/
def win_in_row (gs : GameState) (player : Player) (possible : Bool) : Int :=
  ((List.range gs.rows).map fun r =>
    scanLine player possible (lineCells gs (rowLine gs.cols r))).sum

/-- The `win_in_col` scan of game_logic.rs. -/
def win_in_col (gs : GameState) (player : Player) (possible : Bool) : Int :=
  ((List.range gs.cols).map fun c =>
    scanLine player possible (lineCells gs (colLine gs.rows c))).sum

/-- The `win_in_diag_tl_to_br` scan of game_logic.rs. -/
def win_in_diag_tl_to_br (gs : GameState) (player : Player) (possible : Bool) : Int :=
  ((diagDownStarts gs.rows gs.cols).map fun s =>
    scanLine player possible (lineCells gs (diagDownLine gs.rows gs.cols s))).sum

/-- The `win_in_diag_tr_to_bl` scan of game_logic.rs. -/
def win_in_diag_tr_to_bl (gs : GameState) (player : Player) (possible : Bool) : Int :=
  ((diagUpStarts gs.rows gs.cols).map fun s =>
    scanLine player possible (lineCells gs (diagUpLine gs.rows s))).sum

/-- The `num_wins` total of the four directional scans. -/
def num_wins (gs : GameState) (player : Player) (possible : Bool) : Int :=
  win_in_row gs player possible + win_in_col gs player possible +
    win_in_diag_tl_to_br gs player possible + win_in_diag_tr_to_bl gs player possible

/-- The `result` function: first winner in the order P1, P2; else Draw
on a full board; else undecided. -/
def result (gs : GameState) : Option GameResult :=
  if num_wins gs Player.P1 false ≠ 0 then some (GameResult.Win Player.P1)
  else if num_wins gs Player.P2 false ≠ 0 then some (GameResult.Win Player.P2)
  else if is_full gs then some GameResult.Draw
  else none

/-- The `eval` full evaluator: `±∞` for a decided win, `0.0` for a draw,
else the signed difference of completable-window counts. -/
def eval (gs : GameState) : EVal :=
  match result gs with
  | some (GameResult.Win Player.P1) => EVal.pinf
  | some (GameResult.Win Player.P2) => EVal.ninf
  | some GameResult.Draw => EVal.fin 0
  | none => EVal.fin (num_wins gs Player.P1 true - num_wins gs Player.P2 true)

/-- One directed ray of `GameGlobals::get_win_tests_for_move`: offsets
`1 ..= min(|row_limit - row*base*row_dir|, |col_limit - col*base*col_dir|)`
mapped to coordinates (the `as usize` casts are modelled with `toNat`;
within the generated ranges the values are nonnegative). -/
def rayFor (mov : Move) (rowDir colDir baseDir rowLimit colLimit : Int) : List (Nat × Nat) :=
  let n := min (rowLimit - (mov.row : Int) * baseDir * rowDir).natAbs
              (colLimit - (mov.col : Int) * baseDir * colDir).natAbs
  (List.range' 1 n).map fun o =>
    (((mov.row : Int) + rowDir * (o : Int) * baseDir).toNat,
     ((mov.col : Int) + colDir * (o : Int) * baseDir).toNat)

/-- The `get_win_tests_for_move` precomputation: for each of the four
axes (with its forward and backward limit pair), the forward
(`base_dir = 1`) and backward (`base_dir = -1`) rays from `mov`. -/
def get_win_tests_for_move (rows cols : Nat) (mov : Move) : List (List (List (Nat × Nat))) :=
  let dirsLimits : List ((Int × Int) × (Int × Int) × (Int × Int)) :=
    [((0, 1), (100, (cols : Int) - 1), (100, 0)),
     ((1, 0), ((rows : Int) - 1, 100), (0, 100)),
     ((1, 1), ((rows : Int) - 1, (cols : Int) - 1), (0, 0)),
     ((1, -1), ((rows : Int) - 1, 0), (0, (cols : Int) - 1))]
  dirsLimits.map fun d =>
    [rayFor mov d.1.1 d.1.2 1 d.2.1.1 d.2.1.2,
     rayFor mov d.1.1 d.1.2 (-1) d.2.2.1 d.2.2.2]

/-- The `GameGlobals` record; the precomputed `win_tests` map is
modelled by the generating function evaluated at the key. -/
structure GameGlobals where
  rows : Nat
  cols : Nat
deriving DecidableEq, Repr

/-- Content of the `win_tests` HashMap at key `mov` (the map stores
`get_win_tests_for_move(rows, cols, mov)` for every in-range move). -/
def GameGlobals.win_tests (gg : GameGlobals) (mov : Move) : List (List (List (Nat × Nat))) :=
  get_win_tests_for_move gg.rows gg.cols mov

/-- Whether a cell counts in a `fast_num_wins` ray (`p == player` for
realized wins, `p != player` or empty for completable windows). -/
def rayCountsCell (player : Player) (possible : Bool) : Disc → Bool
  | some p => (p == player && !possible) || (p != player && possible)
  | none => possible

/-- The inner ray loop of `fast_num_wins`: count matching cells outward,
stopping at the first blocking cell (`_ => break`). -/
def rayCount (gs : GameState) (player : Player) (possible : Bool) : List (Nat × Nat) → Int
  | [] => 0
  | rc :: rest =>
      if rayCountsCell player possible (cellAt gs rc.1 rc.2) then
        1 + rayCount gs player possible rest
      else 0

/-- The `fast_num_wins` delta evaluator: per axis, combine the two ray
counts with the closed-form window-count correction. -/
def fast_num_wins (pre_gs : GameState) (possible : Bool) (mov : Move) (gg : GameGlobals) : Int :=
  ((gg.win_tests mov).map fun main_dir =>
    let ranges := main_dir.map (rayCount pre_gs pre_gs.turn possible)
    let r0 := ranges.getD 0 0
    let r1 := ranges.getD 1 0
    if possible then
      max (r0 + r1 - 2) 0 - max (r0 - 3) 0 - max (r1 - 3) 0
    else
      max (ranges.sum - 2) 0).sum

/-- The padded game state carried through the search: state plus cached
evaluation, placed-disc count and asymmetry counter. -/
structure PaddedGameState where
  gs : GameState
  eval : EVal
  placed : Nat
  unsymmetrical_count : Int
deriving DecidableEq, Repr

/-- The `fast_result` incremental terminal check: a nonzero realized-ray
count through the move is a win for the mover; otherwise Draw only when
the cached placed count already equals `rows*cols`. -/
def fast_result (padded : PaddedGameState) (mov : Move) (gg : GameGlobals) : Option GameResult :=
  if fast_num_wins padded.gs false mov gg ≠ 0 then some (GameResult.Win padded.gs.turn)
  else if padded.placed = padded.gs.rows * padded.gs.cols then some GameResult.Draw
  else none

/-- The `fast_eval` incremental evaluator: `±∞`/`0.0` from `fast_result`,
else the cached evaluation plus the signed window-count delta. -/
def fast_eval (padded : PaddedGameState) (mov : Move) (gg : GameGlobals) : EVal :=
  match fast_result padded mov gg with
  | some (GameResult.Win Player.P1) => EVal.pinf
  | some (GameResult.Win Player.P2) => EVal.ninf
  | some GameResult.Draw => EVal.fin 0
  | none =>
      let change := fast_num_wins padded.gs true mov gg
      padded.eval.addFin (if padded.gs.turn = Player.P1 then change else -change)

/-- The `GameState::new` constructor. Note: the Rust source builds the
board as the literal `vec![vec![None; 7]; 6]` — a 6-row, 7-column board
regardless of the dimensions recorded in the globals — while the
`rows`/`cols` fields do come from the globals; the model preserves this. -/
def GameState.new (gg : GameGlobals) : GameState :=
  { turn := Player.P1,
    board := List.replicate 6 (List.replicate 7 none),
    rows := gg.rows, cols := gg.cols }

/-- The `PaddedGameState::get_unsymmetrical_count` scan: number of
mirror-column pairs (left index below `len/2`) whose cells differ. -/
def get_unsymmetrical_count (gs : GameState) : Int :=
  Int.ofNat ((gs.board.map fun row =>
    (List.range (row.length / 2)).countP fun col =>
      row.getD col none != row.getD (row.length - col - 1) none).sum)

/-- The `PaddedGameState::get_unsymmetrical_count_diff` update: 0 for
the exact centre column of an odd board, else -1 when the mover matches
the current occupant of the mirrored cell and +1 otherwise. -/
def get_unsymmetrical_count_diff (gs : GameState) (mov : Move) : Int :=
  if gs.cols % 2 = 1 ∧ mov.col = gs.cols / 2 then 0
  else if some gs.turn = cellAt gs mov.row (gs.cols - mov.col - 1) then -1
  else 1

/-- The `PaddedGameState::new` constructor (fresh empty state). -/
def PaddedGameState.new (gg : GameGlobals) : PaddedGameState :=
  { gs := GameState.new gg, eval := EVal.fin 0, placed := 0, unsymmetrical_count := 0 }

/-- The `PaddedGameState::new_from_game_state` constructor: all cached
fields computed from scratch for the given state. -/
def PaddedGameState.new_from_game_state (gs : GameState) : PaddedGameState :=
  { gs := gs, eval := ConnectFour.eval gs, placed := placed_discs gs,
    unsymmetrical_count := get_unsymmetrical_count gs }

/-- The `PaddedGameState::next` incremental successor; the Rust code
`unwrap`s the `play` result (panicking on an illegal move), modelled
with a `getD` default that no theorem ever exercises. -/
def PaddedGameState.next (old : PaddedGameState) (mov : Move) (gg : GameGlobals) : PaddedGameState :=
  { gs := (play mov old.gs).getD old.gs,
    eval := fast_eval old mov gg,
    placed := old.placed + 1,
    unsymmetrical_count := old.unsymmetrical_count + get_unsymmetrical_count_diff old.gs mov }

/-- The `PaddedGameState::is_symmetrical` test. -/
def PaddedGameState.is_symmetrical (p : PaddedGameState) : Bool :=
  p.unsymmetrical_count == 0

/-- The transposition table (`HashMap<GameState, f32>`), modelled as an
association list looked up by structural equality; `min_max` never
inserts a key twice, so the association-list semantics coincide. -/
abbrev TT := List (GameState × EVal)

/-- HashMap entry lookup by structural key equality. -/
def ttLookup (tt : TT) (gs : GameState) : Option EVal :=
  (tt.find? fun e => e.1 == gs).map fun e => e.2

/-- HashMap insertion of a (fresh) key. -/
def ttInsert (tt : TT) (gs : GameState) (v : EVal) : TT :=
  (gs, v) :: tt

/-- Insert an element before the first kept element it may precede: the
insertion step of a stable sort by a boolean comes-no-later comparison. -/
def stableInsert (le : α → α → Bool) (x : α) : List α → List α
  | [] => [x]
  | y :: ys => if le x y then x :: y :: ys else y :: stableInsert le x ys

/-- A stable sort by a boolean comes-no-later comparison, the model of
Rust's stable `sort_by`: for the total preorders used here it produces
the unique stable sorted reordering. -/
def stableSortBy (le : α → α → Bool) : List α → List α
  | [] => []
  | x :: xs => stableInsert le x (stableSortBy le xs)

/-- The move-ordering comparison of `min_max`/`next_move`: a stable sort
by cached evaluation, descending for P1 to move and ascending for P2
(`total_cmp` on the NaN-free values is the `EVal` order). -/
def sortStates (turn : Player) (states : List PaddedGameState) : List PaddedGameState :=
  stableSortBy (fun a b =>
    match turn with
    | Player.P1 => !(a.eval.blt b.eval)
    | Player.P2 => !(b.eval.blt a.eval)) states

/-- The inner alpha-beta fold of `min_max` over the ordered successor
states: recurse with the running window, collect utilities, raise alpha
(maximizing) or lower beta (minimizing), and return the cutoff bound as
soon as the window inverts. -/
def minMaxLoop (recurse : PaddedGameState → EVal → EVal → TT → EVal × TT) (isMax : Bool) :
    List PaddedGameState → EVal → EVal → List EVal → TT → Option EVal × List EVal × TT
  | [], _, _, utilities, tt => (none, utilities, tt)
  | st :: rest, alpha, beta, utilities, tt =>
      let r := recurse st alpha beta tt
      let utilities := utilities ++ [r.1]
      if isMax then
        let alpha := EVal.fmax alpha r.1
        if beta.blt alpha then (some alpha, utilities, r.2)
        else minMaxLoop recurse isMax rest alpha beta utilities r.2
      else
        let beta := EVal.fmin beta r.1
        if beta.blt alpha then (some beta, utilities, r.2)
        else minMaxLoop recurse isMax rest alpha beta utilities r.2

/-- The `MinMaxAgent::min_max` search: transposition lookup, decided
(`±∞`) short-circuit, depth-0 static evaluation, else the alpha-beta
fold over symmetry-pruned, evaluation-ordered successors, caching the
fully evaluated fold value (cutoff bounds are not cached). -/
def min_max (gg : GameGlobals) : Nat → PaddedGameState → EVal → EVal → TT → EVal × TT
  | depth, padded, alpha, beta, tt =>
    match ttLookup tt padded.gs with
    | some v => (v, tt)
    | none =>
      match padded.eval with
      | EVal.pinf => (EVal.pinf, tt)
      | EVal.ninf => (EVal.ninf, tt)
      | EVal.fin _ =>
        match depth with
        | 0 => (padded.eval, tt)
        | depth' + 1 =>
          let isMax := padded.gs.turn == Player.P1
          let moves := get_legal padded.gs
          let pruned_moves :=
            if padded.is_symmetrical then moves.take ((moves.length + 1) / 2) else moves
          let states :=
            sortStates padded.gs.turn (pruned_moves.map fun mov => PaddedGameState.next padded mov gg)
          match minMaxLoop (fun st a b t => min_max gg depth' st a b t) isMax states alpha beta [] tt with
          | (some cutoff, _, tt1) => (cutoff, tt1)
          | (none, utilities, tt1) =>
            let value := utilities.foldl (if isMax then EVal.fmax else EVal.fmin)
                          (if isMax then EVal.ninf else EVal.pinf)
            (value, ttInsert tt1 padded.gs value)

/-- Plain exhaustive minimax to the given depth over the same static
evaluation, with no alpha-beta window, no symmetry pruning and no
transposition memoization: the comparison walk named by the spec's
search-soundness property (all other behaviour of `min_max` — the
decided-state short-circuit, depth-0 evaluation, and the fold of
successor utilities — is kept). -/
def plainMinimax (gg : GameGlobals) : Nat → PaddedGameState → EVal
  | depth, padded =>
    match padded.eval with
    | EVal.pinf => EVal.pinf
    | EVal.ninf => EVal.ninf
    | EVal.fin _ =>
      match depth with
      | 0 => padded.eval
      | depth' + 1 =>
        let isMax := padded.gs.turn == Player.P1
        let utilities := (get_legal padded.gs).map fun mov =>
          plainMinimax gg depth' (PaddedGameState.next padded mov gg)
        utilities.foldl (if isMax then EVal.fmax else EVal.fmin)
          (if isMax then EVal.ninf else EVal.pinf)

/-- The `rulinalg::utils::argmax` scan (first strict maximum); it
indexes `slice[0]`, so the empty slice has no defined result. -/
def argmaxGo (i : Nat) (best : Nat × EVal) : List EVal → Nat × EVal
  | [] => best
  | y :: ys => argmaxGo (i + 1) (if best.2.blt y then (i, y) else best) ys

/-- Total argmax over a nonempty list, `none` on the empty slice. -/
def argmax : List EVal → Option (Nat × EVal)
  | [] => none
  | x :: xs => some (argmaxGo 1 (0, x) xs)

/-- The `rulinalg::utils::argmin` scan (first strict minimum). -/
def argminGo (i : Nat) (best : Nat × EVal) : List EVal → Nat × EVal
  | [] => best
  | y :: ys => argminGo (i + 1) (if y.blt best.2 then (i, y) else best) ys

/-- Total argmin over a nonempty list, `none` on the empty slice. -/
def argmin : List EVal → Option (Nat × EVal)
  | [] => none
  | x :: xs => some (argminGo 1 (0, x) xs)

/-- The stable sort of the zipped (state, move) pairs in
`MinMaxAgent::next_move`, by cached evaluation for the given turn. -/
def sortZipped (turn : Player) (zs : List (PaddedGameState × Move)) : List (PaddedGameState × Move) :=
  stableSortBy (fun a b =>
    match turn with
    | Player.P1 => !(a.1.eval.blt b.1.eval)
    | Player.P2 => !(b.1.eval.blt a.1.eval)) zs

/-- The top-level loop of `MinMaxAgent::next_move` over the sorted root
successors: call `min_max` with the running window, collect utilities,
then update `alpha` with `f32::min` and `beta` with `f32::max`. -/
def rootLoop (gg : GameGlobals) (depth : Nat) :
    List PaddedGameState → EVal → EVal → List EVal → TT → List EVal × TT
  | [], _, _, utilities, tt => (utilities, tt)
  | st :: rest, alpha, beta, utilities, tt =>
      let r := min_max gg depth st alpha beta tt
      rootLoop gg depth rest (EVal.fmin alpha r.1) (EVal.fmax beta r.1) (utilities ++ [r.1]) r.2

/-- The `next_move_internal` closure of `MinMaxAgent::next_move`: build
and sort the root successors, run the root loop from the full window
with a fresh transposition table, and index the pair list at the
argmax/argmin of the utilities (an empty board yields an empty list,
where the Rust indexing panics; the model returns `none` there). -/
def next_move_internal (gg : GameGlobals) (depth : Nat) (gs : GameState) : Option Move :=
  let padded := PaddedGameState.new_from_game_state gs
  let moves := get_legal gs
  let pruned_moves :=
    if padded.is_symmetrical then moves.take ((moves.length + 1) / 2) else moves
  let states := pruned_moves.map fun mov => PaddedGameState.next padded mov gg
  let zipped := sortZipped gs.turn (states.zip pruned_moves)
  let utilities := (rootLoop gg depth (zipped.map fun z => z.1) EVal.ninf EVal.pinf [] []).1
  let sel := if gs.turn == Player.P1 then argmax utilities else argmin utilities
  sel.bind fun iv => (zipped.get? iv.1).map fun z => z.2

/-- The `RandomMover::next_move` selection with the random draw
abstracted to the chosen index: `moves[pick]`; on an empty move list the
Rust `gen_range(0..0)`/indexing panics, and the model returns `none`. -/
def random_mover_next_move (gs : GameState) (pick : Nat) : Option Move :=
  (get_legal gs).get? pick

/-! Specification-side definitions: 4-windows, line decompositions,
prefix lengths, mirror images and reachability. -/

/-- All 4-cell windows of one line of coordinates. -/
def windowsOfLine (l : List (Nat × Nat)) : List (List (Nat × Nat)) :=
  (List.range (l.length - 3)).map fun i => (l.drop i).take 4

/-- The horizontal lines, in the order `win_in_row` scans them. -/
def hLineCoords (rows cols : Nat) : List (List (Nat × Nat)) :=
  (List.range rows).map (rowLine cols)

/-- The vertical lines, in the order `win_in_col` scans them. -/
def vLineCoords (rows cols : Nat) : List (List (Nat × Nat)) :=
  (List.range cols).map (colLine rows)

/-- The down-right diagonals, in the order `win_in_diag_tl_to_br` scans
them. -/
def dDownCoords (rows cols : Nat) : List (List (Nat × Nat)) :=
  (diagDownStarts rows cols).map (diagDownLine rows cols)

/-- The down-left diagonals, in the order `win_in_diag_tr_to_bl` scans
them. -/
def dUpCoords (rows cols : Nat) : List (List (Nat × Nat)) :=
  (diagUpStarts rows cols).map (diagUpLine rows)

/-- The 4-windows of one family of lines. -/
def dirWindows (lines : List (List (Nat × Nat))) : List (List (Nat × Nat)) :=
  (lines.map windowsOfLine).flatten

/-- Every 4-in-line window of the board, grouped by scan direction. -/
def allWindows (rows cols : Nat) : List (List (Nat × Nat)) :=
  dirWindows (hLineCoords rows cols) ++ dirWindows (vLineCoords rows cols) ++
    dirWindows (dDownCoords rows cols) ++ dirWindows (dUpCoords rows cols)

/-- Whether every cell of a window counts for `player` under the scan
predicate. -/
def windowCounts (gs : GameState) (player : Player) (possible : Bool)
    (w : List (Nat × Nat)) : Bool :=
  w.all fun rc => countsCell player possible (cellAt gs rc.1 rc.2)

/-- Number of windows all of whose cells count. -/
def winCount (gs : GameState) (player : Player) (possible : Bool) : Nat :=
  (allWindows gs.rows gs.cols).countP (windowCounts gs player possible)

/-- A realized four-in-a-row for `p`: some window entirely owned by `p`. -/
def HasWin (gs : GameState) (p : Player) : Prop :=
  ∃ w ∈ allWindows gs.rows gs.cols, ∀ rc ∈ w, cellAt gs rc.1 rc.2 = some p

/-- Length of the maximal all-satisfying prefix of a list. -/
def prefixLen (p : α → Bool) : List α → Nat
  | [] => 0
  | x :: xs => if p x then prefixLen p xs + 1 else 0

/-- The number of windows counted per line by `lineWinCount`. -/
def lineWinCount (player : Player) (possible : Bool) (cells : List Disc) : Nat :=
  (List.range (cells.length - 3)).countP fun i =>
    ((cells.drop i).take 4).all (countsCell player possible)

/-- The left-right mirror image of a board. -/
def mirrorBoard (b : List (List Disc)) : List (List Disc) :=
  b.map List.reverse

/-- The 6-row, 7-column configuration the program plays with. -/
def gg67 : GameGlobals := { rows := 6, cols := 7 }

/-- Game states reachable from the fresh 6x7 state by legal moves, where
a move is only played from a state with no result yet (the game loop
stops as soon as `result` is decided); the final state itself may be
terminal, since games do reach their terminal state. -/
inductive Reachable : GameState → Prop where
  | base : Reachable (GameState.new gg67)
  | step {gs gs' : GameState} {mov : Move} : Reachable gs → result gs = none →
      mov ∈ get_legal gs → play mov gs = some gs' → Reachable gs'

/-- Padded states produced by playing a sequence of legal moves from the
fresh 6x7 padded state through `PaddedGameState::next`. -/
inductive ReachableP : PaddedGameState → Prop where
  | base : ReachableP (PaddedGameState.new gg67)
  | step {p : PaddedGameState} {mov : Move} : ReachableP p → mov ∈ get_legal p.gs →
      ReachableP (PaddedGameState.next p mov gg67)

/-- The windows through the move cell along one axis, parametrized by
how many cells (`3 - j`) lie on the backward ray: backward prefix
reversed, the pivot, then the forward prefix, skipping arms that do not
fit on the board. -/
def windowsThroughMov (mov : Move) (bwd fwd : List (Nat × Nat)) : List (List (Nat × Nat)) :=
  (List.range 4).filterMap fun j =>
    let a := 3 - j
    if a ≤ bwd.length ∧ 3 - a ≤ fwd.length then
      some ((bwd.take a).reverse ++ (mov.row, mov.col) :: fwd.take (3 - a))
    else none

/-- The per-axis ray pair of the precomputed win tests (forward first). -/
def axisRays (gg : GameGlobals) (mov : Move) (k : Nat) : List (Nat × Nat) × List (Nat × Nat) :=
  (((gg.win_tests mov).getD k []).getD 0 [], ((gg.win_tests mov).getD k []).getD 1 [])

/-- All cell coordinates of the 6x7 board. -/
def allCells67 : List (Nat × Nat) :=
  ((List.range 6).map fun r => (List.range 7).map fun c => (r, c)).flatten

/-- Length of the maximal all-satisfying suffix of a list. -/
def suffRun (p : α → Bool) (l : List α) : Nat :=
  prefixLen p l.reverse

/-- Number of mirror-column pairs (left column strictly below `cols/2`,
which excludes an odd board's centre column) whose two cells differ. -/
def mirrorPairDiffs (gs : GameState) : Nat :=
  ((List.range gs.rows).map fun r =>
    (List.range (gs.cols / 2)).countP fun c =>
      cellAt gs r c != cellAt gs r (gs.cols - c - 1)).sum

/-- A mirror pair whose two cells are both occupied and different; such
a pair can never become equal again, since `play` only writes empty
cells. -/
def BadPair (gs : GameState) : Prop :=
  ∃ r c, r < gs.rows ∧ c < gs.cols / 2 ∧
    (cellAt gs r c).isSome ∧ (cellAt gs r (gs.cols - c - 1)).isSome ∧
    cellAt gs r c ≠ cellAt gs r (gs.cols - c - 1)

/-- The root loop of `next_move` specialised to always hand `min_max`
the full window: the comparison loop for the claim that alpha and beta
never move at the root. -/
def fullWindowRootLoop (gg : GameGlobals) (depth : Nat) :
    List PaddedGameState → List EVal → TT → List EVal × TT
  | [], utilities, tt => (utilities, tt)
  | st :: rest, utilities, tt =>
      let r := min_max gg depth st EVal.ninf EVal.pinf tt
      fullWindowRootLoop gg depth rest (utilities ++ [r.1]) r.2

/-- The full drawn 6x7 board of the repository's `draw` unit test: no
empty cell and no four-in-a-row. -/
def fullBoard67 : GameState :=
  { turn := Player.P1,
    board :=
      [[some Player.P2, some Player.P1, some Player.P2, some Player.P1, some Player.P1, some Player.P2, some Player.P1],
       [some Player.P2, some Player.P1, some Player.P1, some Player.P2, some Player.P1, some Player.P2, some Player.P1],
       [some Player.P1, some Player.P2, some Player.P1, some Player.P2, some Player.P1, some Player.P1, some Player.P2],
       [some Player.P1, some Player.P2, some Player.P1, some Player.P1, some Player.P2, some Player.P1, some Player.P2],
       [some Player.P1, some Player.P2, some Player.P2, some Player.P1, some Player.P2, some Player.P2, some Player.P1],
       [some Player.P2, some Player.P1, some Player.P1, some Player.P1, some Player.P2, some Player.P2, some Player.P1]],
    rows := 6, cols := 7 }

/-- The 4x4-globals configuration used to exhibit the small-board
search divergence. -/
def gg44 : GameGlobals := { rows := 4, cols := 4 }

/-- Chained plays from a starting state, stopping at the first failure. -/
def playSeq (movs : List Move) (gs : GameState) : Option GameState :=
  movs.foldl (fun acc mov => acc.bind (play mov)) (some gs)

/-- Playing a move, keeping the old state on failure (used only where
the play is proved to succeed). -/
def playD (mov : Move) (gs : GameState) : GameState :=
  (play mov gs).getD gs

/-- The four per-direction window lists of the 6x7 board, indexed in the
axis order of the precomputed win tests: horizontal, vertical,
down-right diagonal, down-left diagonal. -/
def allWindowsByDir67 : List (List (List (Nat × Nat))) :=
  [dirWindows (hLineCoords 6 7), dirWindows (vLineCoords 6 7),
   dirWindows (dDownCoords 6 7), dirWindows (dUpCoords 6 7)]

/-- The terminal state of the seven-move game in which player one
completes a bottom row while player two has a three-high stack ready in
column 6; the state that separates `fast_eval` from `eval ∘ play`. -/
def c1T : GameState :=
  List.foldl (fun g m => playD m g) (GameState.new gg67)
    [⟨5, 0⟩, ⟨5, 6⟩, ⟨5, 1⟩, ⟨4, 6⟩, ⟨5, 2⟩, ⟨3, 6⟩, ⟨5, 3⟩]

/-- One axis's contribution to `fast_num_wins`: the two ray counts
(forward ray first, as the win tests store them) combined by the
closed-form correction. -/
def axisContrib (gs : GameState) (possible : Bool) (mov : Move) (gg : GameGlobals)
    (k : Nat) : Int :=
  let r0 := rayCount gs gs.turn possible (axisRays gg mov k).1
  let r1 := rayCount gs gs.turn possible (axisRays gg mov k).2
  if possible then
    max (r0 + r1 - 2) 0 - max (r0 - 3) 0 - max (r1 - 3) 0
  else
    max (r0 + r1 - 2) 0

/-- A position with a mover-owned disc directly left of the move cell
(5,1), used to separate the possible-mode ray count from the length of
a mover-or-empty prefix. -/
def c8S : GameState :=
  { turn := Player.P1,
    board := setCell (List.replicate 6 (List.replicate 7 (none : Disc))) 5 0 (some Player.P1),
    rows := 6, cols := 7 }

/-- Game states reachable from the fresh state of an arbitrary
configuration by legal moves, each played while the game is still
undecided. -/
inductive ReachableG (gg : GameGlobals) : GameState → Prop where
  | base : ReachableG gg (GameState.new gg)
  | step {gs gs' : GameState} {mov : Move} : ReachableG gg gs → result gs = none →
      mov ∈ get_legal gs → play mov gs = some gs' → ReachableG gg gs'

/-- A four-move position of the 4x4 configuration (a centre-column
stack and one flank disc) on which the searched and the plain minimax
values separate at depth 2. -/
def c3S : GameState :=
  List.foldl (fun g m => playD m g) (GameState.new gg44)
    [⟨3, 3⟩, ⟨2, 3⟩, ⟨1, 3⟩, ⟨3, 2⟩]

/-- The padded state after the two legal moves (5,0) and (5,6): the
second move lands on the mirror cell of the first, where the
incremental counter adds 1 although the pair already differed. -/
def c2P : PaddedGameState :=
  PaddedGameState.next (PaddedGameState.next (PaddedGameState.new gg67) ⟨5, 0⟩ gg67) ⟨5, 6⟩ gg67

/-! Basic lemmas about the board representation and the rules. -/

theorem find_rev_range_some (p : Nat → Bool) (n r : Nat) :
    ((List.range n).reverse.find? p = some r) ↔
      (r < n ∧ p r = true ∧ ∀ j, r < j → j < n → p j = false) := by
  induction n with
  | zero => simp
  | succ n ih =>
      rw [List.range_succ, List.reverse_append]
      simp only [List.reverse_singleton, List.singleton_append, List.find?_cons]
      by_cases hp : p n
      · simp only [hp, Option.some.injEq]
        constructor
        · rintro rfl
          exact ⟨Nat.lt_succ_self n, hp, fun j h1 h2 => absurd h1 (by omega)⟩
        · rintro ⟨h1, h2, h3⟩
          by_contra hne
          have hrn : r < n := by omega
          have := h3 n hrn (Nat.lt_succ_self n)
          rw [hp] at this
          exact absurd this (by simp)
      · simp only [Bool.not_eq_true] at hp
        simp only [hp, ih]
        constructor
        · rintro ⟨h1, h2, h3⟩
          refine ⟨by omega, h2, fun j hj1 hj2 => ?_⟩
          rcases Nat.lt_succ_iff_lt_or_eq.mp hj2 with h | h
          · exact h3 j hj1 h
          · rwa [h]
        · rintro ⟨h1, h2, h3⟩
          have hrn : r ≠ n := by
            rintro rfl
            rw [hp] at h2
            exact absurd h2 (by simp)
          exact ⟨by omega, h2, fun j hj1 hj2 => h3 j hj1 (by omega)⟩

theorem find_rev_range_none (p : Nat → Bool) (n : Nat) :
    ((List.range n).reverse.find? p = none) ↔ ∀ j, j < n → p j = false := by
  rw [List.find?_eq_none]
  constructor
  · intro h j hj
    have : j ∈ (List.range n).reverse := by simpa using hj
    have := h j this
    simpa using this
  · intro h x hx
    have : x < n := by simpa using hx
    simpa using h x this

theorem legal_in_col_some (gs : GameState) (col : Nat) (mov : Move) :
    (legal_in_col gs col = some mov) ↔
      (mov.col = col ∧ mov.row < gs.rows ∧ cellAt gs mov.row col = none ∧
        ∀ j, mov.row < j → j < gs.rows → cellAt gs j col ≠ none) := by
  unfold legal_in_col
  constructor
  · intro h
    rcases Option.map_eq_some'.mp h with ⟨r, hr, hmov⟩
    rw [find_rev_range_some] at hr
    subst hmov
    refine ⟨rfl, hr.1, by simpa using hr.2.1, fun j h1 h2 => ?_⟩
    have := hr.2.2 j h1 h2
    simpa using this
  · rintro ⟨hc, hr, hcell, hbelow⟩
    have : (List.range gs.rows).reverse.find? (fun r => cellAt gs r col = none) = some mov.row := by
      rw [find_rev_range_some]
      refine ⟨hr, by simpa using hcell, fun j h1 h2 => ?_⟩
      simpa using hbelow j h1 h2
    rw [this]
    simp only [Option.map_some']
    cases mov
    simp_all

theorem mem_get_legal (gs : GameState) (mov : Move) :
    mov ∈ get_legal gs ↔
      (mov.col < gs.cols ∧ mov.row < gs.rows ∧ cellAt gs mov.row mov.col = none ∧
        ∀ j, mov.row < j → j < gs.rows → cellAt gs j mov.col ≠ none) := by
  unfold get_legal
  rw [List.mem_filterMap]
  constructor
  · rintro ⟨col, hcol, hleg⟩
    rw [legal_in_col_some] at hleg
    rcases hleg with ⟨rfl, h1, h2, h3⟩
    exact ⟨by simpa using hcol, h1, h2, h3⟩
  · rintro ⟨h0, h1, h2, h3⟩
    exact ⟨mov.col, by simpa using h0, (legal_in_col_some gs mov.col mov).mpr ⟨rfl, h1, h2, h3⟩⟩

theorem play_some_elim (gs gs' : GameState) (mov : Move) (h : play mov gs = some gs') :
    cellAt gs mov.row mov.col = none ∧
      ¬(mov.row ≠ gs.rows - 1 ∧ cellAt gs (mov.row + 1) mov.col = none) ∧
      gs' = { turn := next_turn gs.turn,
              board := setCell gs.board mov.row mov.col (some gs.turn),
              rows := gs.rows, cols := gs.cols } := by
  unfold play at h
  rcases hcase : cellAt gs mov.row mov.col with _ | p <;> rw [hcase] at h
  · by_cases hcond : mov.row ≠ gs.rows - 1 ∧ cellAt gs (mov.row + 1) mov.col = none
    · rw [if_pos hcond] at h
      exact absurd h (by simp)
    · rw [if_neg hcond] at h
      exact ⟨rfl, hcond, (Option.some.inj h).symm⟩
  · exact absurd h (by simp)

theorem cellAt_setCell (b : List (List Disc)) (d : Disc) (r0 c0 : Nat)
    (hr : r0 < b.length) (hc : c0 < (b.getD r0 []).length) (r c : Nat) :
    ((setCell b r0 c0 d).getD r []).getD c none =
      if r = r0 ∧ c = c0 then d else (b.getD r []).getD c none := by
  unfold setCell
  simp only [List.getD_eq_getElem?_getD] at hc ⊢
  by_cases hrr : r = r0
  · subst hrr
    rw [List.getElem?_set_self hr]
    simp only [Option.getD_some]
    by_cases hcc : c = c0
    · subst hcc
      rw [List.getElem?_set_self hc]
      simp
    · rw [List.getElem?_set_ne (fun h => hcc h.symm)]
      simp [hcc]
  · rw [List.getElem?_set_ne (fun h => hrr h.symm)]
    simp [hrr]

theorem rowLen (gs : GameState) (hwf : WF gs) (r : Nat) (hr : r < gs.rows) :
    (gs.board.getD r []).length = gs.cols := by
  have hr' : r < gs.board.length := by rw [hwf.1]; exact hr
  rw [List.getD_eq_getElem?_getD, List.getElem?_eq_getElem hr']
  exact hwf.2 _ (gs.board.getElem_mem hr')

theorem play_fields (gs gs' : GameState) (mov : Move) (h : play mov gs = some gs') :
    gs'.turn = next_turn gs.turn ∧ gs'.rows = gs.rows ∧ gs'.cols = gs.cols ∧
      gs'.board = setCell gs.board mov.row mov.col (some gs.turn) := by
  obtain ⟨-, -, hb⟩ := play_some_elim gs gs' mov h
  subst hb
  exact ⟨rfl, rfl, rfl, rfl⟩

theorem cellAt_play (gs gs' : GameState) (mov : Move)
    (hwf : WF gs) (hr : mov.row < gs.rows) (hc : mov.col < gs.cols)
    (h : play mov gs = some gs') (r c : Nat) :
    cellAt gs' r c = if r = mov.row ∧ c = mov.col then some gs.turn else cellAt gs r c := by
  obtain ⟨-, hrows, hcols, hboard⟩ := play_fields gs gs' mov h
  unfold cellAt
  rw [hboard]
  have hr' : mov.row < gs.board.length := by rw [hwf.1]; exact hr
  have hc' : mov.col < (gs.board.getD mov.row []).length := by
    rw [rowLen gs hwf mov.row hr]; exact hc
  exact cellAt_setCell gs.board (some gs.turn) mov.row mov.col hr' hc' r c

theorem play_WF (gs gs' : GameState) (mov : Move) (hwf : WF gs) (hr : mov.row < gs.rows)
    (h : play mov gs = some gs') : WF gs' := by
  obtain ⟨-, hrows, hcols, hboard⟩ := play_fields gs gs' mov h
  constructor
  · rw [hboard, hrows]
    unfold setCell
    rw [List.length_set]
    exact hwf.1
  · intro row hrow
    rw [hboard] at hrow
    unfold setCell at hrow
    rcases List.mem_or_eq_of_mem_set hrow with hmem | heq
    · rw [hcols]; exact hwf.2 row hmem
    · have hlt : mov.row < gs.board.length := by rw [hwf.1]; exact hr
      rw [hcols, heq, List.length_set]
      rw [List.getD_eq_getElem?_getD, List.getElem?_eq_getElem hlt]
      exact hwf.2 _ (gs.board.getElem_mem hlt)

theorem cellAt_mem_flatten (gs : GameState) (hwf : WF gs) (r c : Nat)
    (hr : r < gs.rows) (hc : c < gs.cols) : cellAt gs r c ∈ gs.board.flatten := by
  have hr' : r < gs.board.length := by rw [hwf.1]; exact hr
  have hrow : gs.board.getD r [] = gs.board[r] := by
    rw [List.getD_eq_getElem?_getD, List.getElem?_eq_getElem hr']
    rfl
  have hc' : c < (gs.board[r]).length := by
    rw [← hrow, rowLen gs hwf r hr]; exact hc
  have hcell : cellAt gs r c = (gs.board[r])[c] := by
    unfold cellAt
    rw [hrow, List.getD_eq_getElem?_getD, List.getElem?_eq_getElem hc']
    rfl
  rw [hcell]
  exact List.mem_flatten.mpr ⟨gs.board[r], gs.board.getElem_mem hr', List.getElem_mem hc'⟩

theorem length_flatten_board (gs : GameState) (hwf : WF gs) :
    gs.board.flatten.length = gs.rows * gs.cols := by
  rw [List.length_flatten]
  have hmap : gs.board.map List.length = List.replicate gs.rows gs.cols := by
    rw [List.eq_replicate_iff]
    constructor
    · rw [List.length_map]; exact hwf.1
    · intro b hb
      rcases List.mem_map.mp hb with ⟨row, hrow, hlen⟩
      rw [← hlen]; exact hwf.2 row hrow
  rw [hmap, List.sum_replicate, smul_eq_mul]

theorem is_full_iff (gs : GameState) (hwf : WF gs) :
    is_full gs = true ↔ ∀ r, r < gs.rows → ∀ c, c < gs.cols → cellAt gs r c ≠ none := by
  unfold is_full
  rw [Bool.not_eq_eq_eq_not, Bool.not_true, List.any_eq_false]
  constructor
  · intro h r hr c hc
    intro hnone
    have := h (cellAt gs r c) (cellAt_mem_flatten gs hwf r c hr hc)
    rw [hnone] at this
    simp at this
  · intro h d hd
    rcases List.mem_flatten.mp hd with ⟨row, hrow, hdrow⟩
    rcases List.mem_iff_getElem.mp hrow with ⟨r, hr, hrowr⟩
    rcases List.mem_iff_getElem.mp hdrow with ⟨c, hc, hdc⟩
    have hrr : r < gs.rows := by rw [← hwf.1]; exact hr
    have hcc : c < gs.cols := by
      rw [← hwf.2 row hrow]; exact hc
    have h1 : gs.board.getD r [] = row := by
      rw [List.getD_eq_getElem?_getD, List.getElem?_eq_getElem hr]
      simp [hrowr]
    have hcell : cellAt gs r c = d := by
      unfold cellAt
      rw [h1, List.getD_eq_getElem?_getD, List.getElem?_eq_getElem hc]
      simp [hdc]
    have := h r hrr c hcc
    rw [hcell] at this
    rcases d with _ | p
    · exact absurd rfl this
    · simp

theorem placed_lt_of_empty (gs : GameState) (hwf : WF gs) (r c : Nat)
    (hr : r < gs.rows) (hc : c < gs.cols) (he : cellAt gs r c = none) :
    placed_discs gs < gs.rows * gs.cols := by
  unfold placed_discs placed_discs_board
  rw [← List.countP_eq_length_filter, ← length_flatten_board gs hwf]
  rcases Nat.lt_or_ge (gs.board.flatten.countP fun d => d.isSome)
      gs.board.flatten.length with h | h
  · exact h
  · exfalso
    have heq : gs.board.flatten.countP (fun d => d.isSome) = gs.board.flatten.length :=
      Nat.le_antisymm (List.countP_le_length _) h
    have := List.countP_eq_length.mp heq (cellAt gs r c) (cellAt_mem_flatten gs hwf r c hr hc)
    rw [he] at this
    simp at this

/-- C4: evaluating `GameState::new` at globals built for 2 rows and 3
columns: the returned state records `rows = 2`, `cols = 3` and player
one to move with every cell empty, but its board is the hard-coded
6-row, 7-column grid, not the requested 2x3 one. -/
theorem C4_new_hardcoded_board :
    (GameState.new { rows := 2, cols := 3 }).rows = 2 ∧
    (GameState.new { rows := 2, cols := 3 }).cols = 3 ∧
    (GameState.new { rows := 2, cols := 3 }).turn = Player.P1 ∧
    (∀ row ∈ (GameState.new { rows := 2, cols := 3 }).board, ∀ d ∈ row, d = none) ∧
    (GameState.new { rows := 2, cols := 3 }).board.length = 6 ∧
    (∀ row ∈ (GameState.new { rows := 2, cols := 3 }).board, row.length = 7) := by
  refine ⟨rfl, rfl, rfl, ?_, rfl, ?_⟩ <;> decide

/-- C7: `play` fails exactly on an occupied target cell or an
unsupported (floating) placement, and on success returns the input
state with the mover's disc at the target cell and the turn advanced;
the embedding is purely functional, mirroring the Rust function's
behaviour of building a fresh copy and never mutating its input. -/
theorem C7_play_spec (gs : GameState) (mov : Move) (hwf : WF gs)
    (hr : mov.row < gs.rows) (hc : mov.col < gs.cols) :
    (play mov gs = none ↔
      cellAt gs mov.row mov.col ≠ none ∨
        (mov.row ≠ gs.rows - 1 ∧ cellAt gs (mov.row + 1) mov.col = none)) ∧
    (∀ gs', play mov gs = some gs' →
      gs'.turn = next_turn gs.turn ∧ gs'.rows = gs.rows ∧ gs'.cols = gs.cols ∧
      ∀ r c, cellAt gs' r c =
        if r = mov.row ∧ c = mov.col then some gs.turn else cellAt gs r c) := by
  constructor
  · unfold play
    rcases hcase : cellAt gs mov.row mov.col with _ | p
    · by_cases hcond : mov.row ≠ gs.rows - 1 ∧ cellAt gs (mov.row + 1) mov.col = none
      · rw [if_pos hcond]
        simp [hcond]
      · rw [if_neg hcond]
        simp only [hcase]
        constructor
        · intro h
          exact absurd h (by simp)
        · rintro (h | h)
          · exact absurd rfl h
          · exact absurd h hcond
    · simp [hcase]
  · intro gs' h
    obtain ⟨ht, hrows, hcols, -⟩ := play_fields gs gs' mov h
    exact ⟨ht, hrows, hcols, cellAt_play gs gs' mov hwf hr hc h⟩

/-- Witness for C7 at a concrete input: on the fresh 6x7 state, the
floating placement at row 0, column 0 is rejected. -/
theorem C7_witness : play ⟨0, 0⟩ (GameState.new gg67) = none :=
  (C7_play_spec (GameState.new gg67) ⟨0, 0⟩ (by constructor <;> decide)
    (by decide) (by decide)).1.mpr (Or.inr (by decide))

theorem play_of_mem_get_legal (gs : GameState) (mov : Move) (h : mov ∈ get_legal gs) :
    ∃ gs', play mov gs = some gs' := by
  obtain ⟨hc, hr, hcell, hbelow⟩ := (mem_get_legal gs mov).mp h
  unfold play
  rw [hcell]
  rw [if_neg]
  · exact ⟨_, rfl⟩
  · rintro ⟨h1, h2⟩
    have hlt : mov.row + 1 < gs.rows := by omega
    exact hbelow (mov.row + 1) (by omega) hlt h2

/-- C5: `get_legal` returns exactly one move per column that still has
an empty cell, in strictly ascending column order, each at the lowest
empty row of its column (every cell below it is occupied); on a full
board it returns the empty sequence; and `play` accepts every move it
returns. -/
theorem C5_get_legal_spec (gs : GameState) (hwf : WF gs) :
    (∀ mov, mov ∈ get_legal gs ↔
      (mov.col < gs.cols ∧ mov.row < gs.rows ∧ cellAt gs mov.row mov.col = none ∧
        ∀ j, mov.row < j → j < gs.rows → cellAt gs j mov.col ≠ none)) ∧
    List.Pairwise (fun a b => a.col < b.col) (get_legal gs) ∧
    (∀ col, col < gs.cols → (∃ r, r < gs.rows ∧ cellAt gs r col = none) →
      ∃! mov, mov ∈ get_legal gs ∧ mov.col = col) ∧
    (is_full gs = true → get_legal gs = []) ∧
    (∀ mov ∈ get_legal gs, ∃ gs', play mov gs = some gs') := by
  refine ⟨mem_get_legal gs, ?_, ?_, ?_, fun mov h => play_of_mem_get_legal gs mov h⟩
  · unfold get_legal
    refine List.Pairwise.filterMap _ ?_ (List.pairwise_lt_range gs.cols)
    intro a a' hlt b hb b' hb'
    rw [Option.mem_def, legal_in_col_some] at hb hb'
    rw [hb.1, hb'.1]
    exact hlt
  · intro col hcol ⟨r, hr, hempty⟩
    have hne : (List.range gs.rows).reverse.find? (fun j => cellAt gs j col = none) ≠ none := by
      intro hnone
      rw [find_rev_range_none] at hnone
      have := hnone r hr
      rw [hempty] at this
      simp at this
    rcases Option.ne_none_iff_exists'.mp hne with ⟨r0, hr0⟩
    have hlegal : legal_in_col gs col = some ⟨r0, col⟩ := by
      unfold legal_in_col
      rw [hr0]
      rfl
    refine ⟨⟨r0, col⟩, ⟨?_, rfl⟩, ?_⟩
    · exact List.mem_filterMap.mpr ⟨col, by simpa using hcol, hlegal⟩
    · rintro mov ⟨hmem, hcolm⟩
      obtain ⟨-, hrm, hcellm, hbelowm⟩ := (mem_get_legal gs mov).mp hmem
      rw [find_rev_range_some] at hr0
      obtain ⟨hr0lt, hr0cell, hr0above⟩ := hr0
      have : mov.row = r0 := by
        rcases Nat.lt_trichotomy mov.row r0 with h | h | h
        · exfalso
          have := hbelowm r0 h hr0lt
          rw [hcolm] at this
          exact this (by simpa using hr0cell)
        · exact h
        · exfalso
          have := hr0above mov.row h hrm
          rw [← hcolm] at this
          rw [hcellm] at this
          simp at this
      cases mov
      simp_all
  · intro hfull
    have hchar := is_full_iff gs hwf |>.mp hfull
    rcases hleg : get_legal gs with _ | ⟨mov, rest⟩
    · rfl
    · exfalso
      have hmem : mov ∈ get_legal gs := by rw [hleg]; exact List.mem_cons_self _ _
      obtain ⟨hc, hr, hcell, -⟩ := (mem_get_legal gs mov).mp hmem
      exact hchar mov.row hr mov.col hc hcell

/-- Witness for C5 at a concrete input: on the fresh 6x7 state the
bottom cell of column 0 is a legal move, and playing it succeeds. -/
theorem C5_witness :
    (⟨5, 0⟩ : Move) ∈ get_legal (GameState.new gg67) ∧
      ∃ gs', play ⟨5, 0⟩ (GameState.new gg67) = some gs' := by
  have h := C5_get_legal_spec (GameState.new gg67) (by constructor <;> decide)
  have hmem : (⟨5, 0⟩ : Move) ∈ get_legal (GameState.new gg67) :=
    (h.1 ⟨5, 0⟩).mpr ⟨by decide, by decide, by decide,
      fun j h1 h2 => by
        have h5 : 5 < j := h1
        have h6 : j < 6 := h2
        omega⟩
  exact ⟨hmem, h.2.2.2.2 _ hmem⟩

/-! The scan loops of the `win_in_*` functions count exactly the
all-counting 4-windows of the scanned line. -/

theorem prefixLen_le_length (p : α → Bool) (l : List α) : prefixLen p l ≤ l.length := by
  induction l with
  | nil => simp [prefixLen]
  | cons x xs ih =>
      unfold prefixLen
      split
      · simpa using ih
      · simp

theorem take_all_iff_prefixLen (p : α → Bool) (l : List α) (k : Nat) :
    ((l.take k).all p = true) ↔ min k l.length ≤ prefixLen p l := by
  induction l generalizing k with
  | nil => simp
  | cons x xs ih =>
      cases k with
      | zero => simp
      | succ k =>
          simp only [List.take_succ_cons, List.all_cons, Bool.and_eq_true, List.length_cons]
          unfold prefixLen
          by_cases hp : p x
          · rw [if_pos hp]
            simp only [hp, true_and, ih]
            omega
          · rw [if_neg hp]
            have hp' : p x = false := by rwa [Bool.not_eq_true] at hp
            simp only [hp', Bool.false_eq_true, false_and, false_iff]
            omega

theorem suffRun_le_length (p : α → Bool) (l : List α) : suffRun p l ≤ l.length := by
  unfold suffRun
  simpa using prefixLen_le_length p l.reverse

theorem suffRun_append (p : α → Bool) (l : List α) (d : α) :
    suffRun p (l ++ [d]) = if p d then suffRun p l + 1 else 0 := by
  unfold suffRun
  rw [List.reverse_append]
  simp [prefixLen]

theorem drop_all_iff_suffRun (p : α → Bool) (l : List α) (k : Nat) :
    ((l.drop (l.length - k)).all p = true) ↔ min k l.length ≤ suffRun p l := by
  have h1 : l.drop (l.length - k) = (l.reverse.take k).reverse := by
    rw [List.take_reverse, List.reverse_reverse]
  rw [h1, List.all_reverse, take_all_iff_prefixLen]
  unfold suffRun
  rw [List.length_reverse]

theorem lineWinCount_append (player : Player) (possible : Bool) (l : List Disc) (d : Disc) :
    lineWinCount player possible (l ++ [d]) =
      lineWinCount player possible l +
        (if countsCell player possible d = true ∧
            3 ≤ suffRun (countsCell player possible) l then 1 else 0) := by
  unfold lineWinCount
  rcases Nat.lt_or_ge l.length 3 with hn | hn
  · rw [List.length_append, List.length_singleton]
    have h1 : l.length + 1 - 3 = 0 := by omega
    have h2 : l.length - 3 = 0 := by omega
    rw [h1, h2]
    have h3 := suffRun_le_length (countsCell player possible) l
    rw [if_neg (by rintro ⟨-, h⟩; omega)]
    rfl
  · rw [List.length_append, List.length_singleton]
    have h1 : l.length + 1 - 3 = (l.length - 3) + 1 := by omega
    rw [h1, List.range_succ, List.countP_append]
    congr 1
    · apply List.countP_congr
      intro i hi
      have hi' : i < l.length - 3 := by simpa using hi
      rw [List.drop_append_of_le_length (by omega),
        List.take_append_of_le_length (by rw [List.length_drop]; omega)]
    · rw [List.countP_singleton]
      have hdrop : (l ++ [d]).drop (l.length - 3) = l.drop (l.length - 3) ++ [d] :=
        List.drop_append_of_le_length (by omega)
      have hlen : (l.drop (l.length - 3)).length = 3 := by
        rw [List.length_drop]; omega
      have htake : ((l ++ [d]).drop (l.length - 3)).take 4 = l.drop (l.length - 3) ++ [d] := by
        rw [hdrop]
        exact List.take_of_length_le (by rw [List.length_append, hlen]; simp)
      rw [htake, List.all_append]
      simp only [List.all_cons, List.all_nil, Bool.and_true]
      have hall : ((l.drop (l.length - 3)).all (countsCell player possible) = true) ↔
          3 ≤ suffRun (countsCell player possible) l := by
        rw [drop_all_iff_suffRun]
        omega
      have hiff : (((l.drop (l.length - 3)).all (countsCell player possible) &&
          countsCell player possible d) = true) ↔
          (countsCell player possible d = true ∧
            3 ≤ suffRun (countsCell player possible) l) := by
        rw [Bool.and_eq_true, hall, and_comm]
      by_cases hcond : countsCell player possible d = true ∧
          3 ≤ suffRun (countsCell player possible) l
      · rw [if_pos (hiff.mpr hcond), if_pos hcond]
      · rw [if_neg (fun h => hcond (hiff.mp h)), if_neg hcond]

theorem scan_fold_spec (player : Player) (possible : Bool) (cells : List Disc) :
    cells.foldl (scanStep player possible) (0, 0) =
      (min (suffRun (countsCell player possible) cells) 3,
       (lineWinCount player possible cells : Int)) := by
  induction cells using List.reverseRecOn with
  | nil => simp [suffRun, prefixLen, lineWinCount]
  | append_singleton l d ih =>
      rw [List.foldl_append, ih, List.foldl_cons, List.foldl_nil,
        lineWinCount_append, suffRun_append]
      simp only [scanStep]
      by_cases hd : countsCell player possible d = true
      · rw [if_pos hd, if_pos hd]
        by_cases hs : 3 ≤ suffRun (countsCell player possible) l
        · rw [if_pos (show ((min (suffRun (countsCell player possible) l) 3 + 1 == 4) = true) by
              rw [beq_iff_eq]; omega)]
          rw [if_pos ⟨hd, hs⟩, Prod.mk.injEq]
          exact ⟨by omega, by push_cast; omega⟩
        · rw [if_neg (show ¬ ((min (suffRun (countsCell player possible) l) 3 + 1 == 4) = true) by
              rw [beq_iff_eq]; omega)]
          rw [if_neg (fun hcon => hs hcon.2), Prod.mk.injEq]
          exact ⟨by omega, by push_cast; omega⟩
      · rw [if_neg hd, if_neg hd]
        rw [if_neg (show ¬ (((0 : Nat) == 4) = true) by decide)]
        rw [if_neg (fun hcon => hd hcon.1), Prod.mk.injEq]
        exact ⟨by omega, by push_cast; omega⟩

theorem scanLine_eq (player : Player) (possible : Bool) (cells : List Disc) :
    scanLine player possible cells = (lineWinCount player possible cells : Int) := by
  unfold scanLine
  rw [scan_fold_spec]

theorem lineWinCount_eq_countP (gs : GameState) (player : Player) (possible : Bool)
    (line : List (Nat × Nat)) :
    lineWinCount player possible (lineCells gs line) =
      (windowsOfLine line).countP (windowCounts gs player possible) := by
  unfold lineWinCount windowsOfLine lineCells
  rw [List.countP_map, List.length_map]
  apply List.countP_congr
  intro i hi
  simp only [Function.comp_apply]
  unfold windowCounts
  simp only [List.all_eq_true]
  have hmt : List.take 4 (List.drop i (List.map (fun rc => cellAt gs rc.1 rc.2) line)) =
      List.map (fun rc => cellAt gs rc.1 rc.2) (List.take 4 (List.drop i line)) := by
    rw [List.map_take, List.map_drop]
  rw [hmt]
  constructor
  · intro h rc hrc
    exact h _ (List.mem_map_of_mem _ hrc)
  · intro h x hx
    rcases List.mem_map.mp hx with ⟨rc, hrc, rfl⟩
    exact h rc hrc

theorem dir_sum_eq (gs : GameState) (player : Player) (possible : Bool)
    (lines : List (List (Nat × Nat))) :
    (lines.map fun line => scanLine player possible (lineCells gs line)).sum =
      ((dirWindows lines).countP (windowCounts gs player possible) : Int) := by
  unfold dirWindows
  rw [List.countP_flatten, List.map_map]
  induction lines with
  | nil => simp
  | cons line rest ih =>
      simp only [List.map_cons, List.sum_cons]
      rw [ih, scanLine_eq, lineWinCount_eq_countP]
      simp only [Function.comp_apply]
      push_cast
      omega

theorem win_in_row_eq (gs : GameState) (player : Player) (possible : Bool) :
    win_in_row gs player possible =
      ((dirWindows (hLineCoords gs.rows gs.cols)).countP
        (windowCounts gs player possible) : Int) := by
  unfold win_in_row
  rw [← dir_sum_eq]
  unfold hLineCoords
  rw [List.map_map]
  rfl

theorem win_in_col_eq (gs : GameState) (player : Player) (possible : Bool) :
    win_in_col gs player possible =
      ((dirWindows (vLineCoords gs.rows gs.cols)).countP
        (windowCounts gs player possible) : Int) := by
  unfold win_in_col
  rw [← dir_sum_eq]
  unfold vLineCoords
  rw [List.map_map]
  rfl

theorem win_in_diag_down_eq (gs : GameState) (player : Player) (possible : Bool) :
    win_in_diag_tl_to_br gs player possible =
      ((dirWindows (dDownCoords gs.rows gs.cols)).countP
        (windowCounts gs player possible) : Int) := by
  unfold win_in_diag_tl_to_br
  rw [← dir_sum_eq]
  unfold dDownCoords
  rw [List.map_map]
  rfl

theorem win_in_diag_up_eq (gs : GameState) (player : Player) (possible : Bool) :
    win_in_diag_tr_to_bl gs player possible =
      ((dirWindows (dUpCoords gs.rows gs.cols)).countP
        (windowCounts gs player possible) : Int) := by
  unfold win_in_diag_tr_to_bl
  rw [← dir_sum_eq]
  unfold dUpCoords
  rw [List.map_map]
  rfl

theorem num_wins_eq_winCount (gs : GameState) (player : Player) (possible : Bool) :
    num_wins gs player possible = (winCount gs player possible : Int) := by
  unfold num_wins winCount allWindows
  rw [win_in_row_eq, win_in_col_eq, win_in_diag_down_eq, win_in_diag_up_eq,
    List.countP_append, List.countP_append, List.countP_append]
  push_cast
  omega

theorem countsCell_false_iff (p : Player) (d : Disc) :
    countsCell p false d = true ↔ d = some p := by
  rcases d with _ | q
  · simp [countsCell]
  · rcases p with _ | _ <;> rcases q with _ | _ <;> simp [countsCell]

theorem winCount_false_pos_iff (gs : GameState) (p : Player) :
    winCount gs p false ≠ 0 ↔ HasWin gs p := by
  unfold winCount HasWin
  rw [← Nat.pos_iff_ne_zero, List.countP_pos_iff]
  constructor
  · rintro ⟨w, hw, hcount⟩
    refine ⟨w, hw, fun rc hrc => ?_⟩
    unfold windowCounts at hcount
    rw [List.all_eq_true] at hcount
    exact (countsCell_false_iff p _).mp (hcount rc hrc)
  · rintro ⟨w, hw, hall⟩
    refine ⟨w, hw, ?_⟩
    unfold windowCounts
    rw [List.all_eq_true]
    intro rc hrc
    exact (countsCell_false_iff p _).mpr (hall rc hrc)

theorem num_wins_false_zero_iff (gs : GameState) (p : Player) :
    num_wins gs p false = 0 ↔ ¬ HasWin gs p := by
  rw [← winCount_false_pos_iff, not_not, num_wins_eq_winCount]
  constructor
  · intro h
    exact_mod_cast h
  · intro h
    exact_mod_cast h

theorem result_none_elim (gs : GameState) (h : result gs = none) :
    num_wins gs Player.P1 false = 0 ∧ num_wins gs Player.P2 false = 0 ∧
      is_full gs = false := by
  unfold result at h
  by_cases h1 : num_wins gs Player.P1 false ≠ 0
  · rw [if_pos h1] at h
    exact absurd h (by simp)
  · rw [if_neg h1] at h
    by_cases h2 : num_wins gs Player.P2 false ≠ 0
    · rw [if_pos h2] at h
      exact absurd h (by simp)
    · rw [if_neg h2] at h
      by_cases h3 : is_full gs
      · rw [if_pos h3] at h
        exact absurd h (by simp)
      · rw [if_neg h3] at h
        push_neg at h1 h2
        exact ⟨h1, h2, by simpa using h3⟩

/-- C6: `result` prefers a win over the full-board check — whenever a
player has a realized four-in-a-row it reports a win (for a player who
does have one), and it reports Draw only on a full board with no
four-in-a-row for either player; likewise `fast_result` reports the
mover's win whenever the realized-ray scan through the move is nonzero,
and can only report Draw when the cached placed count already equals
`rows*cols` — never for a move played into a board with an empty cell. -/
theorem C6_result_win_priority (gs : GameState) :
    ((∃ p, HasWin gs p) → ∃ q, result gs = some (GameResult.Win q) ∧ HasWin gs q) ∧
    (result gs = some GameResult.Draw → is_full gs = true ∧ ∀ p, ¬ HasWin gs p) ∧
    (∀ (padded : PaddedGameState) (mov : Move) (gg : GameGlobals),
      fast_num_wins padded.gs false mov gg ≠ 0 →
        fast_result padded mov gg = some (GameResult.Win padded.gs.turn)) ∧
    (∀ (padded : PaddedGameState) (mov : Move) (gg : GameGlobals),
      padded.placed ≠ padded.gs.rows * padded.gs.cols →
        fast_result padded mov gg ≠ some GameResult.Draw) := by
  refine ⟨?_, ?_, ?_, ?_⟩
  · rintro ⟨p, hp⟩
    unfold result
    by_cases h1 : num_wins gs Player.P1 false ≠ 0
    · rw [if_pos h1]
      exact ⟨Player.P1, rfl, (winCount_false_pos_iff gs Player.P1).mp
        (fun h => h1 (by rw [num_wins_eq_winCount, h]; rfl))⟩
    · rw [if_neg h1]
      by_cases h2 : num_wins gs Player.P2 false ≠ 0
      · rw [if_pos h2]
        exact ⟨Player.P2, rfl, (winCount_false_pos_iff gs Player.P2).mp
          (fun h => h2 (by rw [num_wins_eq_winCount, h]; rfl))⟩
      · exfalso
        push_neg at h1 h2
        rcases p with _ | _
        · exact (num_wins_false_zero_iff gs Player.P1).mp h1 hp
        · exact (num_wins_false_zero_iff gs Player.P2).mp h2 hp
  · intro h
    unfold result at h
    by_cases h1 : num_wins gs Player.P1 false ≠ 0
    · rw [if_pos h1] at h
      exact absurd h (by simp)
    · rw [if_neg h1] at h
      by_cases h2 : num_wins gs Player.P2 false ≠ 0
      · rw [if_pos h2] at h
        exact absurd h (by simp)
      · rw [if_neg h2] at h
        by_cases h3 : is_full gs
        · push_neg at h1 h2
          refine ⟨by simpa using h3, fun p => ?_⟩
          rcases p with _ | _
          · exact (num_wins_false_zero_iff gs Player.P1).mp h1
          · exact (num_wins_false_zero_iff gs Player.P2).mp h2
        · rw [if_neg h3] at h
          exact absurd h (by simp)
  · intro padded mov gg hnz
    unfold fast_result
    rw [if_pos hnz]
  · intro padded mov gg hplaced
    unfold fast_result
    by_cases hnz : fast_num_wins padded.gs false mov gg ≠ 0
    · rw [if_pos hnz]
      simp
    · rw [if_neg hnz, if_neg hplaced]
      simp

/-- Witness for C6 at concrete inputs: the repository's full drawn board
is reported as a Draw with no four-in-a-row for either player. -/
theorem C6_witness :
    is_full fullBoard67 = true ∧ ¬ HasWin fullBoard67 Player.P1 :=
  ⟨((C6_result_win_priority fullBoard67).2.1 (by decide)).1,
   ((C6_result_win_priority fullBoard67).2.1 (by decide)).2 Player.P1⟩

/-! The incremental ray counts of `fast_num_wins` as maximal prefixes. -/

theorem rayCount_eq_prefixLen (gs : GameState) (player : Player) (possible : Bool)
    (ray : List (Nat × Nat)) :
    rayCount gs player possible ray =
      (prefixLen
        (fun rc => rayCountsCell player possible (cellAt gs rc.1 rc.2)) ray : Int) := by
  induction ray with
  | nil => rfl
  | cons rc rest ih =>
      unfold rayCount prefixLen
      by_cases h : rayCountsCell player possible (cellAt gs rc.1 rc.2) = true
      · rw [if_pos h, if_pos h, ih]
        push_cast
        omega
      · rw [if_neg h, if_neg h]
        rfl

theorem rayCountsCell_true_eq (p : Player) (d : Disc) :
    rayCountsCell p true d = countsCell (next_turn p) true d := by
  rcases d with _ | q
  · rfl
  · rcases p with _ | _ <;> rcases q with _ | _ <;> rfl

theorem rayCountsCell_false_eq (p : Player) (d : Disc) :
    rayCountsCell p false d = countsCell p false d := by
  rcases d with _ | q
  · rfl
  · rcases p with _ | _ <;> rcases q with _ | _ <;> rfl

/-! Finite geometry facts of the 6x7 board, settled by computation: the
windows of an axis that pass through a cell are exactly the windows
assembled from the precomputed backward and forward rays of that cell,
the rays never revisit the cell itself, and all window cells are in
bounds. -/

theorem geom_windows_through :
    (allCells67.all fun rc =>
      (List.range 4).all fun k =>
        decide (((allWindowsByDir67.getD k []).filter fun w => decide ((rc.1, rc.2) ∈ w)) =
          windowsThroughMov ⟨rc.1, rc.2⟩ (axisRays gg67 ⟨rc.1, rc.2⟩ k).2
            (axisRays gg67 ⟨rc.1, rc.2⟩ k).1)) = true := by
  decide

theorem geom_rays_avoid_pivot :
    (allCells67.all fun rc =>
      (List.range 4).all fun k =>
        ((gg67.win_tests ⟨rc.1, rc.2⟩).getD k []).all fun ray =>
          decide ((rc.1, rc.2) ∉ ray)) = true := by
  decide

theorem geom_windows_in_bounds :
    decide (∀ w ∈ allWindows 6 7, ∀ rc ∈ w, rc.1 < 6 ∧ rc.2 < 7) = true := by
  decide

/-- The number of all-satisfying windows through the pivot equals the
closed-form correction of `fast_num_wins` evaluated at the two maximal
ray prefixes. -/
theorem countP_windowsThroughMov (ok : Nat × Nat → Bool) (mov : Move)
    (bwd fwd : List (Nat × Nat)) (hpivot : ok (mov.row, mov.col) = true) :
    ((windowsThroughMov mov bwd fwd).countP fun w => w.all ok : Int) =
      max ((prefixLen ok fwd : Int) + (prefixLen ok bwd : Int) - 2) 0 -
        max ((prefixLen ok fwd : Int) - 3) 0 -
        max ((prefixLen ok bwd : Int) - 3) 0 := by
  unfold windowsThroughMov
  rw [List.countP_filterMap]
  have hB := prefixLen_le_length ok bwd
  have hF := prefixLen_le_length ok fwd
  have hcong : (List.range 4).countP
      (fun j => (Option.map (fun w => w.all ok)
        (if 3 - j ≤ bwd.length ∧ 3 - (3 - j) ≤ fwd.length then
          some ((bwd.take (3 - j)).reverse ++ (mov.row, mov.col) :: fwd.take (3 - (3 - j)))
        else none)).getD false) =
      (List.range 4).countP (fun j =>
        decide (3 - j ≤ bwd.length ∧ 3 - (3 - j) ≤ fwd.length ∧
          3 - j ≤ prefixLen ok bwd ∧ 3 - (3 - j) ≤ prefixLen ok fwd)) := by
    apply List.countP_congr
    intro j hj
    by_cases hc : 3 - j ≤ bwd.length ∧ 3 - (3 - j) ≤ fwd.length
    · rw [if_pos hc]
      simp only [Option.map_some', Option.getD_some, List.all_append, List.all_reverse,
        List.all_cons, Bool.and_eq_true, decide_eq_true_eq]
      rw [hpivot]
      rw [take_all_iff_prefixLen, take_all_iff_prefixLen]
      constructor
      · rintro ⟨h1, -, h2⟩
        refine ⟨hc.1, hc.2, ?_, ?_⟩ <;> omega
      · rintro ⟨h1, h2, h3, h4⟩
        refine ⟨by omega, ⟨rfl, by omega⟩⟩
    · rw [if_neg hc]
      simp only [Option.map_none', Option.getD_none, decide_eq_true_eq]
      constructor
      · intro h
        exact absurd h (by simp)
      · rintro ⟨h1, h2, -⟩
        exact absurd ⟨h1, h2⟩ hc
  rw [hcong]
  have h4 : List.range 4 = [0, 1, 2, 3] := rfl
  rw [h4]
  simp only [List.countP_cons, List.countP_nil, decide_eq_true_eq]
  split_ifs <;> push_cast <;> omega

theorem win_tests_unfold (gg : GameGlobals) (mov : Move) :
    gg.win_tests mov =
      [[rayFor mov 0 1 1 100 ((gg.cols : Int) - 1), rayFor mov 0 1 (-1) 100 0],
       [rayFor mov 1 0 1 ((gg.rows : Int) - 1) 100, rayFor mov 1 0 (-1) 0 100],
       [rayFor mov 1 1 1 ((gg.rows : Int) - 1) ((gg.cols : Int) - 1),
        rayFor mov 1 1 (-1) 0 0],
       [rayFor mov 1 (-1) 1 ((gg.rows : Int) - 1) 0,
        rayFor mov 1 (-1) (-1) 0 ((gg.cols : Int) - 1)]] := rfl

theorem fast_num_wins_eval (gs : GameState) (possible : Bool) (mov : Move)
    (gg : GameGlobals) :
    fast_num_wins gs possible mov gg =
      axisContrib gs possible mov gg 0 + axisContrib gs possible mov gg 1 +
        axisContrib gs possible mov gg 2 + axisContrib gs possible mov gg 3 := by
  unfold fast_num_wins axisContrib axisRays
  rw [win_tests_unfold]
  simp only [List.map_cons, List.map_nil, List.sum_cons, List.sum_nil, List.getD]
  rcases possible with _ | _
  · simp only [Bool.false_eq_true, if_false]
    ring_nf
    rfl
  · simp only [if_true]
    ring_nf
    rfl

theorem prefixLen_congr (p q : α → Bool) (l : List α) (h : ∀ x ∈ l, p x = q x) :
    prefixLen p l = prefixLen q l := by
  induction l with
  | nil => rfl
  | cons x xs ih =>
      unfold prefixLen
      rw [h x (List.mem_cons_self x xs), ih (fun y hy => h y (List.mem_cons_of_mem x hy))]

theorem countP_filter_split (p q : α → Bool) (l : List α) :
    l.countP p = (l.filter q).countP p + (l.filter fun a => !q a).countP p := by
  induction l with
  | nil => rfl
  | cons a rest ih =>
      rw [List.countP_cons, List.filter_cons, List.filter_cons]
      by_cases hq : q a
      · rw [if_pos hq]
        have : (!q a) = false := by rw [hq]; rfl
        rw [this]
        simp only [Bool.false_eq_true, if_false]
        rw [List.countP_cons, ih]
        omega
      · rw [if_neg hq]
        have hq' : q a = false := by rwa [Bool.not_eq_true] at hq
        have : (!q a) = true := by rw [hq']; rfl
        rw [this]
        simp only [if_true]
        rw [List.countP_cons, ih]
        omega

theorem windows_through_eq (mov : Move) (hr : mov.row < 6) (hc : mov.col < 7)
    (k : Nat) (hk : k < 4) :
    (allWindowsByDir67.getD k []).filter (fun w => decide ((mov.row, mov.col) ∈ w)) =
      windowsThroughMov mov (axisRays gg67 mov k).2 (axisRays gg67 mov k).1 := by
  have hmem : (mov.row, mov.col) ∈ allCells67 := by
    unfold allCells67
    rw [List.mem_flatten]
    exact ⟨(List.range 7).map fun c => (mov.row, c),
      List.mem_map_of_mem _ (by simpa using hr),
      List.mem_map_of_mem _ (by simpa using hc)⟩
  have hall := geom_windows_through
  rw [List.all_eq_true] at hall
  have h1 := hall _ hmem
  rw [List.all_eq_true] at h1
  have h2 := h1 k (by simpa using hk)
  rw [decide_eq_true_eq] at h2
  exact h2

theorem ray_avoids_pivot (mov : Move) (hr : mov.row < 6) (hc : mov.col < 7)
    (k : Nat) (hk : k < 4) (ray : List (Nat × Nat))
    (hray : ray ∈ (gg67.win_tests mov).getD k []) :
    (mov.row, mov.col) ∉ ray := by
  have hmem : (mov.row, mov.col) ∈ allCells67 := by
    unfold allCells67
    rw [List.mem_flatten]
    exact ⟨(List.range 7).map fun c => (mov.row, c),
      List.mem_map_of_mem _ (by simpa using hr),
      List.mem_map_of_mem _ (by simpa using hc)⟩
  have hall := geom_rays_avoid_pivot
  rw [List.all_eq_true] at hall
  have h1 := hall _ hmem
  rw [List.all_eq_true] at h1
  have h2 := h1 k (by simpa using hk)
  rw [List.all_eq_true] at h2
  have h3 := h2 ray hray
  rw [decide_eq_true_eq] at h3
  exact h3

theorem window_cells_in_bounds (w : List (Nat × Nat)) (hw : w ∈ allWindows 6 7)
    (rc : Nat × Nat) (hrc : rc ∈ w) : rc.1 < 6 ∧ rc.2 < 7 := by
  have h := geom_windows_in_bounds
  rw [decide_eq_true_eq] at h
  exact h w hw rc hrc

/-! The window-count delta of one played move. -/

theorem cellAt_play_ne (gs gs' : GameState) (mov : Move)
    (hwf : WF gs) (hr : mov.row < gs.rows) (hc : mov.col < gs.cols)
    (hplay : play mov gs = some gs') (rc : Nat × Nat)
    (hne : (mov.row, mov.col) ≠ rc) :
    cellAt gs' rc.1 rc.2 = cellAt gs rc.1 rc.2 := by
  rw [cellAt_play gs gs' mov hwf hr hc hplay]
  rw [if_neg]
  rintro ⟨h1, h2⟩
  exact hne (by rw [← h1, ← h2])

theorem cellAt_play_pivot (gs gs' : GameState) (mov : Move)
    (hwf : WF gs) (hr : mov.row < gs.rows) (hc : mov.col < gs.cols)
    (hplay : play mov gs = some gs') :
    cellAt gs' mov.row mov.col = some gs.turn := by
  rw [cellAt_play gs gs' mov hwf hr hc hplay]
  rw [if_pos ⟨rfl, rfl⟩]

theorem list_all_congr (l : List α) (p q : α → Bool) (h : ∀ x ∈ l, p x = q x) :
    l.all p = l.all q := by
  induction l with
  | nil => rfl
  | cons x xs ih =>
      rw [List.all_cons, List.all_cons, h x (List.mem_cons_self x xs),
        ih fun y hy => h y (List.mem_cons_of_mem x hy)]

theorem next_turn_ne (p : Player) : p ≠ next_turn p := by
  rcases p with _ | _ <;> decide

theorem countsCell_some (q : Player) (pw : Bool) (p : Player) :
    countsCell q pw (some p) = (p == q) := rfl

theorem windowCounts_play_of_not_mem (gs gs' : GameState) (mov : Move)
    (hwf : WF gs) (hr : mov.row < gs.rows) (hc : mov.col < gs.cols)
    (hplay : play mov gs = some gs') (q : Player) (pw : Bool)
    (w : List (Nat × Nat)) (hnm : (mov.row, mov.col) ∉ w) :
    windowCounts gs' q pw w = windowCounts gs q pw w := by
  unfold windowCounts
  apply list_all_congr
  intro rc hrc
  rw [cellAt_play_ne gs gs' mov hwf hr hc hplay rc (fun heq => hnm (heq ▸ hrc))]

theorem winCount_play_mover (gs gs' : GameState) (mov : Move)
    (hwf : WF gs) (hr : mov.row < gs.rows) (hc : mov.col < gs.cols)
    (hcell : cellAt gs mov.row mov.col = none)
    (hplay : play mov gs = some gs') :
    (allWindows 6 7).countP (windowCounts gs' gs.turn true) =
      (allWindows 6 7).countP (windowCounts gs gs.turn true) := by
  apply List.countP_congr
  intro w hw
  have hcong : windowCounts gs' gs.turn true w = windowCounts gs gs.turn true w := by
    unfold windowCounts
    apply list_all_congr
    intro rc hrc
    by_cases hp : (mov.row, mov.col) = rc
    · rw [← hp]
      simp only
      rw [cellAt_play_pivot gs gs' mov hwf hr hc hplay, hcell]
      simp [countsCell]
    · rw [cellAt_play_ne gs gs' mov hwf hr hc hplay rc hp]
  rw [hcong]

theorem winCount_play_opp (gs gs' : GameState) (mov : Move)
    (hwf : WF gs) (hr : mov.row < gs.rows) (hc : mov.col < gs.cols)
    (hplay : play mov gs = some gs') :
    (allWindows 6 7).countP (windowCounts gs' (next_turn gs.turn) true) +
      ((allWindows 6 7).filter fun w => decide ((mov.row, mov.col) ∈ w)).countP
        (windowCounts gs (next_turn gs.turn) true) =
      (allWindows 6 7).countP (windowCounts gs (next_turn gs.turn) true) := by
  rw [countP_filter_split (windowCounts gs' (next_turn gs.turn) true)
    (fun w => decide ((mov.row, mov.col) ∈ w)) (allWindows 6 7)]
  rw [countP_filter_split (windowCounts gs (next_turn gs.turn) true)
    (fun w => decide ((mov.row, mov.col) ∈ w)) (allWindows 6 7)]
  have hzero : ((allWindows 6 7).filter fun w => decide ((mov.row, mov.col) ∈ w)).countP
      (windowCounts gs' (next_turn gs.turn) true) = 0 := by
    rw [List.countP_eq_zero]
    intro w hw
    rw [List.mem_filter, decide_eq_true_eq] at hw
    unfold windowCounts
    intro hall
    rw [List.all_eq_true] at hall
    have := hall (mov.row, mov.col) hw.2
    simp only at this
    rw [cellAt_play_pivot gs gs' mov hwf hr hc hplay, countsCell_some,
      beq_iff_eq] at this
    exact next_turn_ne _ this
  have hsame : ((allWindows 6 7).filter fun w => !decide ((mov.row, mov.col) ∈ w)).countP
      (windowCounts gs' (next_turn gs.turn) true) =
      ((allWindows 6 7).filter fun w => !decide ((mov.row, mov.col) ∈ w)).countP
        (windowCounts gs (next_turn gs.turn) true) := by
    apply List.countP_congr
    intro w hw
    rw [List.mem_filter] at hw
    have hnm : (mov.row, mov.col) ∉ w := by
      have := hw.2
      simp only [Bool.not_eq_eq_eq_not, Bool.not_true, decide_eq_false_iff_not] at this
      exact this
    rw [windowCounts_play_of_not_mem gs gs' mov hwf hr hc hplay _ true w hnm]
  rw [hzero, hsame]
  omega

theorem winCount_play_realized (gs gs' : GameState) (mov : Move)
    (hwf : WF gs) (hr : mov.row < gs.rows) (hc : mov.col < gs.cols)
    (hplay : play mov gs = some gs')
    (hpre1 : (allWindows 6 7).countP (windowCounts gs Player.P1 false) = 0)
    (hpre2 : (allWindows 6 7).countP (windowCounts gs Player.P2 false) = 0) :
    (allWindows 6 7).countP (windowCounts gs' (next_turn gs.turn) false) = 0 ∧
    (allWindows 6 7).countP (windowCounts gs' gs.turn false) =
      ((allWindows 6 7).filter fun w => decide ((mov.row, mov.col) ∈ w)).countP
        (windowCounts gs' gs.turn false) := by
  have hpre : ∀ q, (allWindows 6 7).countP (windowCounts gs q false) = 0 := by
    intro q
    rcases q with _ | _
    · exact hpre1
    · exact hpre2
  have hsplit : ∀ q, (allWindows 6 7).countP (windowCounts gs' q false) =
      ((allWindows 6 7).filter fun w => decide ((mov.row, mov.col) ∈ w)).countP
        (windowCounts gs' q false) := by
    intro q
    rw [countP_filter_split (windowCounts gs' q false)
      (fun w => decide ((mov.row, mov.col) ∈ w)) (allWindows 6 7)]
    have hsame : ((allWindows 6 7).filter fun w => !decide ((mov.row, mov.col) ∈ w)).countP
        (windowCounts gs' q false) = 0 := by
      have hz := hpre q
      rw [List.countP_eq_zero] at hz ⊢
      intro w hw
      rw [List.mem_filter] at hw
      have hnm : (mov.row, mov.col) ∉ w := by
        have := hw.2
        simp only [Bool.not_eq_eq_eq_not, Bool.not_true, decide_eq_false_iff_not] at this
        exact this
      rw [windowCounts_play_of_not_mem gs gs' mov hwf hr hc hplay q false w hnm]
      exact hz w hw.1
    rw [hsame]
    omega
  constructor
  · rw [hsplit (next_turn gs.turn)]
    rw [List.countP_eq_zero]
    intro w hw
    rw [List.mem_filter, decide_eq_true_eq] at hw
    unfold windowCounts
    intro hall
    rw [List.all_eq_true] at hall
    have := hall (mov.row, mov.col) hw.2
    simp only at this
    rw [cellAt_play_pivot gs gs' mov hwf hr hc hplay, countsCell_some,
      beq_iff_eq] at this
    exact next_turn_ne _ this
  · exact hsplit gs.turn

/-! The per-axis contributions of `fast_num_wins` as window counts
through the move cell. -/

theorem axisContrib_true_eq (gs : GameState) (mov : Move)
    (hr : mov.row < 6) (hc : mov.col < 7)
    (hcell : cellAt gs mov.row mov.col = none) (k : Nat) (hk : k < 4) :
    axisContrib gs true mov gg67 k =
      (((allWindowsByDir67.getD k []).filter fun w =>
        decide ((mov.row, mov.col) ∈ w)).countP
          (windowCounts gs (next_turn gs.turn) true) : Int) := by
  unfold axisContrib
  simp only [if_true]
  rw [rayCount_eq_prefixLen, rayCount_eq_prefixLen]
  have hpred : ∀ ray : List (Nat × Nat), prefixLen
      (fun rc : Nat × Nat => rayCountsCell gs.turn true (cellAt gs rc.1 rc.2)) ray =
      prefixLen (fun rc : Nat × Nat =>
        countsCell (next_turn gs.turn) true (cellAt gs rc.1 rc.2)) ray :=
    fun ray => prefixLen_congr _ _ ray fun rc _ => rayCountsCell_true_eq gs.turn _
  rw [hpred, hpred]
  rw [windows_through_eq mov hr hc k hk]
  unfold windowCounts
  rw [countP_windowsThroughMov (fun rc : Nat × Nat => countsCell (next_turn gs.turn) true
    (cellAt gs rc.1 rc.2)) mov _ _ (by simp only; rw [hcell]; rfl)]

theorem mem_win_tests_axis (mov : Move) (k : Nat) (hk : k < 4) (i : Nat) (hi : i < 2) :
    ((gg67.win_tests mov).getD k []).getD i [] ∈ (gg67.win_tests mov).getD k [] := by
  rw [win_tests_unfold]
  interval_cases k <;> interval_cases i <;> simp [List.getD]

theorem axisContrib_false_eq (gs gs' : GameState) (mov : Move)
    (hwf : WF gs) (h6 : gs.rows = 6) (h7 : gs.cols = 7)
    (hr : mov.row < 6) (hc : mov.col < 7)
    (hplay : play mov gs = some gs') (k : Nat) (hk : k < 4) :
    ∃ pF pB : Nat,
      axisContrib gs false mov gg67 k = max ((pF : Int) + (pB : Int) - 2) 0 ∧
      (((allWindowsByDir67.getD k []).filter fun w =>
        decide ((mov.row, mov.col) ∈ w)).countP
          (windowCounts gs' gs.turn false) : Int) =
        max ((pF : Int) + (pB : Int) - 2) 0 -
          max ((pF : Int) - 3) 0 - max ((pB : Int) - 3) 0 := by
  have hr' : mov.row < gs.rows := by rw [h6]; exact hr
  have hc' : mov.col < gs.cols := by rw [h7]; exact hc
  refine ⟨prefixLen (fun rc : Nat × Nat => countsCell gs.turn false (cellAt gs rc.1 rc.2))
      (axisRays gg67 mov k).1,
    prefixLen (fun rc : Nat × Nat => countsCell gs.turn false (cellAt gs rc.1 rc.2))
      (axisRays gg67 mov k).2, ?_, ?_⟩
  · unfold axisContrib
    simp only [Bool.false_eq_true, if_false]
    rw [rayCount_eq_prefixLen, rayCount_eq_prefixLen]
    have hpred : ∀ ray : List (Nat × Nat), prefixLen
        (fun rc : Nat × Nat => rayCountsCell gs.turn false (cellAt gs rc.1 rc.2)) ray =
        prefixLen (fun rc : Nat × Nat =>
          countsCell gs.turn false (cellAt gs rc.1 rc.2)) ray :=
      fun ray => prefixLen_congr _ _ ray fun rc _ => rayCountsCell_false_eq gs.turn _
    rw [hpred, hpred]
  · rw [windows_through_eq mov hr hc k hk]
    unfold windowCounts
    rw [countP_windowsThroughMov (fun rc : Nat × Nat => countsCell gs.turn false
      (cellAt gs' rc.1 rc.2)) mov _ _ (by
        simp only
        rw [cellAt_play_pivot gs gs' mov hwf hr' hc' hplay, countsCell_some,
          beq_self_eq_true])]
    have htrans : ∀ i, i < 2 → prefixLen
        (fun rc : Nat × Nat => countsCell gs.turn false (cellAt gs' rc.1 rc.2))
          (((gg67.win_tests mov).getD k []).getD i []) =
        prefixLen (fun rc : Nat × Nat => countsCell gs.turn false (cellAt gs rc.1 rc.2))
          (((gg67.win_tests mov).getD k []).getD i []) := by
      intro i hi
      apply prefixLen_congr
      intro rc hrc
      rw [cellAt_play_ne gs gs' mov hwf hr' hc' hplay rc]
      exact fun heq => ray_avoids_pivot mov hr hc k hk _
        (mem_win_tests_axis mov k hk i hi) (heq ▸ hrc)
    have h0 := htrans 0 (by omega)
    have h1 := htrans 1 (by omega)
    unfold axisRays
    rw [h0, h1]

theorem fast_possible_eq_through (gs : GameState) (mov : Move)
    (hr : mov.row < 6) (hc : mov.col < 7)
    (hcell : cellAt gs mov.row mov.col = none) :
    fast_num_wins gs true mov gg67 =
      (((allWindows 6 7).filter fun w => decide ((mov.row, mov.col) ∈ w)).countP
        (windowCounts gs (next_turn gs.turn) true) : Int) := by
  rw [fast_num_wins_eval,
    axisContrib_true_eq gs mov hr hc hcell 0 (by omega),
    axisContrib_true_eq gs mov hr hc hcell 1 (by omega),
    axisContrib_true_eq gs mov hr hc hcell 2 (by omega),
    axisContrib_true_eq gs mov hr hc hcell 3 (by omega)]
  have hsplit : allWindows 6 7 =
      allWindowsByDir67.getD 0 [] ++ allWindowsByDir67.getD 1 [] ++
        allWindowsByDir67.getD 2 [] ++ allWindowsByDir67.getD 3 [] := rfl
  rw [hsplit, List.filter_append, List.filter_append, List.filter_append,
    List.countP_append, List.countP_append, List.countP_append]
  push_cast
  ring

theorem fast_realized_iff (gs gs' : GameState) (mov : Move)
    (hwf : WF gs) (h6 : gs.rows = 6) (h7 : gs.cols = 7)
    (hr : mov.row < 6) (hc : mov.col < 7)
    (hplay : play mov gs = some gs') :
    fast_num_wins gs false mov gg67 ≠ 0 ↔
      ((allWindows 6 7).filter fun w => decide ((mov.row, mov.col) ∈ w)).countP
        (windowCounts gs' gs.turn false) ≠ 0 := by
  obtain ⟨pF0, pB0, he0, hq0⟩ := axisContrib_false_eq gs gs' mov hwf h6 h7 hr hc hplay 0 (by omega)
  obtain ⟨pF1, pB1, he1, hq1⟩ := axisContrib_false_eq gs gs' mov hwf h6 h7 hr hc hplay 1 (by omega)
  obtain ⟨pF2, pB2, he2, hq2⟩ := axisContrib_false_eq gs gs' mov hwf h6 h7 hr hc hplay 2 (by omega)
  obtain ⟨pF3, pB3, he3, hq3⟩ := axisContrib_false_eq gs gs' mov hwf h6 h7 hr hc hplay 3 (by omega)
  rw [fast_num_wins_eval, he0, he1, he2, he3]
  have hsplit : allWindows 6 7 =
      allWindowsByDir67.getD 0 [] ++ allWindowsByDir67.getD 1 [] ++
        allWindowsByDir67.getD 2 [] ++ allWindowsByDir67.getD 3 [] := rfl
  rw [hsplit, List.filter_append, List.filter_append, List.filter_append,
    List.countP_append, List.countP_append, List.countP_append]
  omega

theorem player_cases (q t : Player) : q = t ∨ q = next_turn t := by
  rcases q with _ | _ <;> rcases t with _ | _ <;> simp [next_turn]

theorem winCount_true_zero_of_full (gs' : GameState) (hwf' : WF gs')
    (h6' : gs'.rows = 6) (h7' : gs'.cols = 7) (hfull : is_full gs' = true)
    (hreal : ∀ q, (allWindows 6 7).countP (windowCounts gs' q false) = 0) (q : Player) :
    (allWindows 6 7).countP (windowCounts gs' q true) = 0 := by
  rw [List.countP_eq_zero]
  intro w hw hall
  have hzero := hreal q
  rw [List.countP_eq_zero] at hzero
  apply hzero w hw
  unfold windowCounts at hall ⊢
  rw [List.all_eq_true] at hall ⊢
  intro rc hrc
  have hb := window_cells_in_bounds w hw rc hrc
  have hfi := (is_full_iff gs' hwf').mp hfull rc.1 (by rw [h6']; exact hb.1)
    rc.2 (by rw [h7']; exact hb.2)
  rcases hcase : cellAt gs' rc.1 rc.2 with _ | p
  · exact absurd hcase hfi
  · have h1 := hall rc hrc
    rw [hcase] at h1
    simp only [countsCell] at h1 ⊢
    exact h1

/-- The incremental evaluator agrees with the full evaluator of the
played position, on a well-formed 6x7 state with no result yet and any
legal move. -/
theorem fast_eval_eq_eval_play (gs gs' : GameState) (mov : Move)
    (hwf : WF gs) (h6 : gs.rows = 6) (h7 : gs.cols = 7)
    (hres : result gs = none) (hmov : mov ∈ get_legal gs)
    (hplay : play mov gs = some gs') :
    fast_eval (PaddedGameState.new_from_game_state gs) mov gg67 = eval gs' := by
  obtain ⟨hcb, hrb, hcell, -⟩ := (mem_get_legal gs mov).mp hmov
  have hr : mov.row < 6 := by rw [← h6]; exact hrb
  have hc : mov.col < 7 := by rw [← h7]; exact hcb
  obtain ⟨hturn', hrows', hcols', -⟩ := play_fields gs gs' mov hplay
  have hwf' : WF gs' := play_WF gs gs' mov hwf hrb hplay
  obtain ⟨hnw1, hnw2, hnotfull⟩ := result_none_elim gs hres
  have hW : ∀ q pw, num_wins gs q pw =
      ((allWindows 6 7).countP (windowCounts gs q pw) : Int) := by
    intro q pw
    rw [num_wins_eq_winCount]
    unfold winCount
    rw [h6, h7]
  have hW' : ∀ q pw, num_wins gs' q pw =
      ((allWindows 6 7).countP (windowCounts gs' q pw) : Int) := by
    intro q pw
    rw [num_wins_eq_winCount]
    unfold winCount
    rw [hrows', hcols', h6, h7]
  have hpre1 : (allWindows 6 7).countP (windowCounts gs Player.P1 false) = 0 := by
    have h := hW Player.P1 false
    rw [hnw1] at h
    exact_mod_cast h.symm
  have hpre2 : (allWindows 6 7).countP (windowCounts gs Player.P2 false) = 0 := by
    have h := hW Player.P2 false
    rw [hnw2] at h
    exact_mod_cast h.symm
  obtain ⟨hpostopp, hpostmover⟩ :=
    winCount_play_realized gs gs' mov hwf hrb hcb hplay hpre1 hpre2
  by_cases hwin : fast_num_wins gs false mov gg67 ≠ 0
  · -- the move completes a four-in-a-row: both sides report the mover's win
    have hfr : fast_result (PaddedGameState.new_from_game_state gs) mov gg67 =
        some (GameResult.Win gs.turn) := by
      unfold fast_result PaddedGameState.new_from_game_state
      simp only
      rw [if_pos hwin]
    have hthr := (fast_realized_iff gs gs' mov hwf h6 h7 hr hc hplay).mp hwin
    have hmoverpos : (allWindows 6 7).countP (windowCounts gs' gs.turn false) ≠ 0 := by
      rw [hpostmover]
      exact hthr
    unfold fast_eval
    rw [hfr]
    rcases hturncase : gs.turn with _ | _
    · rw [hturncase] at hmoverpos
      have h1 : num_wins gs' Player.P1 false ≠ 0 := by
        rw [hW' Player.P1 false]
        intro h0
        exact hmoverpos (by exact_mod_cast h0)
      have hresult : result gs' = some (GameResult.Win Player.P1) := by
        unfold result
        rw [if_pos h1]
      unfold eval
      rw [hresult]
    · rw [hturncase] at hmoverpos hpostopp
      simp only [next_turn] at hpostopp
      have h1 : num_wins gs' Player.P1 false = 0 := by
        rw [hW' Player.P1 false, hpostopp]
        rfl
      have h2 : num_wins gs' Player.P2 false ≠ 0 := by
        rw [hW' Player.P2 false]
        intro h0
        exact hmoverpos (by exact_mod_cast h0)
      have hresult : result gs' = some (GameResult.Win Player.P2) := by
        unfold result
        rw [if_neg (fun hcon => hcon h1), if_pos h2]
      unfold eval
      rw [hresult]
  · -- no completed four: both sides continue with the window-count delta
    push_neg at hwin
    have hthr0 : ((allWindows 6 7).filter fun w => decide ((mov.row, mov.col) ∈ w)).countP
        (windowCounts gs' gs.turn false) = 0 := by
      by_contra hne
      exact (fast_realized_iff gs gs' mov hwf h6 h7 hr hc hplay).mpr hne hwin
    have hmover0 : (allWindows 6 7).countP (windowCounts gs' gs.turn false) = 0 := by
      rw [hpostmover]
      exact hthr0
    have hrealzero : ∀ q, (allWindows 6 7).countP (windowCounts gs' q false) = 0 := by
      intro q
      rcases player_cases q gs.turn with hq | hq
      · rw [hq]; exact hmover0
      · rw [hq]; exact hpostopp
    have hno1 : num_wins gs' Player.P1 false = 0 := by
      rw [hW' Player.P1 false, hrealzero Player.P1]
      rfl
    have hno2 : num_wins gs' Player.P2 false = 0 := by
      rw [hW' Player.P2 false, hrealzero Player.P2]
      rfl
    have hplaced : placed_discs gs ≠ gs.rows * gs.cols := by
      have := placed_lt_of_empty gs hwf mov.row mov.col hrb hcb hcell
      omega
    have hfr : fast_result (PaddedGameState.new_from_game_state gs) mov gg67 = none := by
      unfold fast_result PaddedGameState.new_from_game_state
      simp only
      rw [if_neg (fun hcon => hcon hwin), if_neg hplaced]
    unfold fast_eval
    rw [hfr]
    simp only [PaddedGameState.new_from_game_state]
    have hevalpre : ConnectFour.eval gs =
        EVal.fin (num_wins gs Player.P1 true - num_wins gs Player.P2 true) := by
      unfold eval
      rw [hres]
    rw [hevalpre]
    have hchange := fast_possible_eq_through gs mov hr hc hcell
    have hmovdelta := winCount_play_mover gs gs' mov hwf hrb hcb hcell hplay
    have hoppdelta := winCount_play_opp gs gs' mov hwf hrb hcb hplay
    have hdelta : num_wins gs' Player.P1 true - num_wins gs' Player.P2 true =
        (num_wins gs Player.P1 true - num_wins gs Player.P2 true) +
          (if gs.turn = Player.P1 then fast_num_wins gs true mov gg67
           else -fast_num_wins gs true mov gg67) := by
      rcases hturncase : gs.turn with _ | _
      · rw [hturncase] at hmovdelta hoppdelta hchange
        simp only [next_turn] at hoppdelta hchange
        rw [if_pos rfl, hW' Player.P1 true, hW' Player.P2 true,
          hW Player.P1 true, hW Player.P2 true, hmovdelta, hchange]
        omega
      · rw [hturncase] at hmovdelta hoppdelta hchange
        simp only [next_turn] at hoppdelta hchange
        rw [if_neg (by decide), hW' Player.P1 true, hW' Player.P2 true,
          hW Player.P1 true, hW Player.P2 true, hmovdelta, hchange]
        omega
    by_cases hfull : is_full gs'
    · have hres' : result gs' = some GameResult.Draw := by
        unfold result
        rw [if_neg (fun hcon => hcon hno1), if_neg (fun hcon => hcon hno2), if_pos hfull]
      unfold eval
      rw [hres']
      have hzero' := winCount_true_zero_of_full gs' hwf'
        (by rw [hrows']; exact h6) (by rw [hcols']; exact h7) hfull hrealzero
      have hdiff0 : num_wins gs' Player.P1 true - num_wins gs' Player.P2 true = 0 := by
        rw [hW' Player.P1 true, hW' Player.P2 true, hzero' Player.P1, hzero' Player.P2]
        rfl
      rcases hturncase : gs.turn with _ | _
      · rw [if_pos rfl]
        rw [hturncase, if_pos rfl] at hdelta
        simp only [EVal.addFin, EVal.fin.injEq]
        omega
      · rw [if_neg (by decide)]
        rw [hturncase, if_neg (by decide)] at hdelta
        simp only [EVal.addFin, EVal.fin.injEq]
        omega
    · have hres' : result gs' = none := by
        unfold result
        rw [if_neg (fun hcon => hcon hno1), if_neg (fun hcon => hcon hno2), if_neg hfull]
      unfold eval
      rw [hres']
      rcases hturncase : gs.turn with _ | _
      · rw [if_pos rfl]
        rw [hturncase, if_pos rfl] at hdelta
        simp only [EVal.addFin, EVal.fin.injEq]
        omega
      · rw [if_neg (by decide)]
        rw [hturncase, if_neg (by decide)] at hdelta
        simp only [EVal.addFin, EVal.fin.injEq]
        omega

theorem Reachable_stepD (gs : GameState) (mov : Move) (h : Reachable gs)
    (hres : result gs = none) (hmov : mov ∈ get_legal gs) :
    Reachable (playD mov gs) := by
  obtain ⟨gs', hgs'⟩ := play_of_mem_get_legal gs mov hmov
  unfold playD
  rw [hgs']
  exact Reachable.step h hres hmov hgs'

theorem Reachable_props (gs : GameState) (h : Reachable gs) :
    WF gs ∧ gs.rows = 6 ∧ gs.cols = 7 := by
  induction h with
  | base =>
      refine ⟨⟨rfl, ?_⟩, rfl, rfl⟩
      intro row hrow
      simp only [GameState.new, List.mem_replicate] at hrow
      rw [hrow.2]
      rfl
  | step hreach hres hmov hplay ih =>
      obtain ⟨hwf, h6, h7⟩ := ih
      obtain ⟨-, hrb, -, -⟩ := (mem_get_legal _ _).mp hmov
      obtain ⟨-, hrows, hcols, -⟩ := play_fields _ _ _ hplay
      exact ⟨play_WF _ _ _ hwf hrb hplay, by rw [hrows, h6], by rw [hcols, h7]⟩

theorem Reachable_c1T : Reachable c1T := by
  have hc : c1T = playD ⟨5, 3⟩ (playD ⟨3, 6⟩ (playD ⟨5, 2⟩ (playD ⟨4, 6⟩ (playD ⟨5, 1⟩
      (playD ⟨5, 6⟩ (playD ⟨5, 0⟩ (GameState.new gg67))))))) := rfl
  have h0 : Reachable (GameState.new gg67) := Reachable.base
  have h1 := Reachable_stepD _ ⟨5, 0⟩ h0 (by decide) (by decide)
  have h2 := Reachable_stepD _ ⟨5, 6⟩ h1 (by decide) (by decide)
  have h3 := Reachable_stepD _ ⟨5, 1⟩ h2 (by decide) (by decide)
  have h4 := Reachable_stepD _ ⟨4, 6⟩ h3 (by decide) (by decide)
  have h5 := Reachable_stepD _ ⟨5, 2⟩ h4 (by decide) (by decide)
  have h6 := Reachable_stepD _ ⟨3, 6⟩ h5 (by decide) (by decide)
  have h7 := Reachable_stepD _ ⟨5, 3⟩ h6 (by decide) (by decide)
  rw [hc]
  exact h7

/-- C1 (amended): for every reachable 6x7 state whose game is not yet
decided and every move returned by `get_legal`, `fast_eval` on the
freshly padded state returns exactly the same value as `eval` of the
played position, infinities included. The undecided-state hypothesis is
the amendment: on a reachable terminal state the two sides can differ,
as the separate counterexample shows. -/
theorem C1_fast_eval_equiv (gs gs' : GameState) (mov : Move)
    (hreach : Reachable gs) (hres : result gs = none)
    (hmov : mov ∈ get_legal gs) (hplay : play mov gs = some gs') :
    fast_eval (PaddedGameState.new_from_game_state gs) mov gg67 = eval gs' := by
  obtain ⟨hwf, h6, h7⟩ := Reachable_props gs hreach
  exact fast_eval_eq_eval_play gs gs' mov hwf h6 h7 hres hmov hplay

/-- C1 counterexample: `c1T` is reachable (player one has just completed
a bottom-row four), `get_legal` still offers the move (2,6), and on that
move `fast_eval` reports minus infinity (it sees player two completing a
column-6 four) while `eval` of the played position reports plus infinity
(`result` checks player one first); so the claim's equivalence fails on
a reachable state without the undecided-state hypothesis. -/
theorem C1_cex :
    Reachable c1T ∧ (⟨2, 6⟩ : Move) ∈ get_legal c1T ∧
      fast_eval (PaddedGameState.new_from_game_state c1T) ⟨2, 6⟩ gg67 = EVal.ninf ∧
      (play ⟨2, 6⟩ c1T).map eval = some EVal.pinf :=
  ⟨Reachable_c1T, by decide, by decide, by decide⟩

theorem C1_witness :
    fast_eval (PaddedGameState.new_from_game_state (GameState.new gg67)) ⟨5, 0⟩ gg67 =
      eval (playD ⟨5, 0⟩ (GameState.new gg67)) :=
  C1_fast_eval_equiv (GameState.new gg67) (playD ⟨5, 0⟩ (GameState.new gg67)) ⟨5, 0⟩
    Reachable.base (by decide) (by decide) (by decide)

/-- C8 (amended): in possible-wins mode each per-ray count of
`fast_num_wins` equals the length of the maximal prefix of the ray whose
cells are OPPONENT-owned or empty — the guard of the counting match arm
is `p != player` when `possible_wins` is set, so a mover-owned disc
blocks the ray and an opposing disc is counted, the reverse of the
claim's mover-owned-or-empty reading. -/
theorem C8_ray_count (gs : GameState) (mov : Move) (gg : GameGlobals)
    (axis : List (List (Nat × Nat))) (ray : List (Nat × Nat))
    (_haxis : axis ∈ gg.win_tests mov) (_hray : ray ∈ axis) :
    rayCount gs gs.turn true ray =
      (prefixLen
        (fun rc => countsCell (next_turn gs.turn) true (cellAt gs rc.1 rc.2)) ray : Int) := by
  rw [rayCount_eq_prefixLen]
  norm_cast
  apply prefixLen_congr
  intro rc hrc
  rw [rayCountsCell_true_eq]

/-- C8 counterexample: in the position `c8S` (player one to move, a
player-one disc on (5,0)), the backward horizontal ray of the move
(5,1) is the single cell (5,0); `fast_num_wins`'s possible-mode count
for that ray is 0, because the mover's own disc blocks it, while the
maximal mover-owned-or-empty prefix of the ray has length 1. -/
theorem C8_cex :
    (gg67.win_tests ⟨5, 1⟩).getD 0 [] ∈ gg67.win_tests ⟨5, 1⟩ ∧
      [(5, 0)] ∈ (gg67.win_tests ⟨5, 1⟩).getD 0 [] ∧
      rayCount c8S c8S.turn true [(5, 0)] = 0 ∧
      prefixLen (fun rc => countsCell c8S.turn true (cellAt c8S rc.1 rc.2)) [(5, 0)] = 1 :=
  ⟨by decide, by decide, by decide, by decide⟩

theorem C8_witness :
    rayCount c8S c8S.turn true [(5, 0)] =
      (prefixLen
        (fun rc => countsCell (next_turn c8S.turn) true (cellAt c8S rc.1 rc.2)) [(5, 0)] : Int) :=
  C8_ray_count c8S ⟨5, 1⟩ gg67 ((gg67.win_tests ⟨5, 1⟩).getD 0 []) [(5, 0)]
    (by decide) (by decide)

theorem fmin_ninf (v : EVal) : EVal.fmin EVal.ninf v = EVal.ninf := by
  rcases v with _ | a | _ <;> rfl

theorem fmax_pinf (v : EVal) : EVal.fmax EVal.pinf v = EVal.pinf := by
  rcases v with _ | a | _ <;> rfl

theorem get_legal_nil_of_full (gs : GameState) (hwf : WF gs) (hfull : is_full gs = true) :
    get_legal gs = [] := by
  rw [List.eq_nil_iff_forall_not_mem]
  intro mov hmov
  obtain ⟨hcb, hrb, hcell, -⟩ := (mem_get_legal gs mov).mp hmov
  exact (is_full_iff gs hwf).mp hfull mov.row hrb mov.col hcb hcell

/-- C9: on a full board `get_legal` is empty, and both agents' move
selection has no defined result — the Rust code indexes `moves[...]` on
the empty vector (via `argmax`/`argmin` of an empty utilities slice, or
`gen_range(0..0)`), which panics; the model returns `none` there. -/
theorem C9_next_move_full (gg : GameGlobals) (depth : Nat) (gs : GameState) (pick : Nat)
    (hwf : WF gs) (hfull : is_full gs = true) :
    get_legal gs = [] ∧ next_move_internal gg depth gs = none ∧
      random_mover_next_move gs pick = none := by
  have hnil := get_legal_nil_of_full gs hwf hfull
  refine ⟨hnil, ?_, ?_⟩
  · unfold next_move_internal
    rw [hnil]
    simp only [List.take_nil, ite_self, List.map_nil, List.zip_nil_left, sortZipped,
      stableSortBy, rootLoop, argmax, argmin]
    rfl
  · unfold random_mover_next_move
    rw [hnil]
    rfl

theorem C9_witness :
    get_legal fullBoard67 = [] ∧ next_move_internal gg67 2 fullBoard67 = none ∧
      random_mover_next_move fullBoard67 0 = none :=
  C9_next_move_full gg67 2 fullBoard67 0 (by unfold WF; decide) (by decide)

/-- C10: the root loop of `next_move`, started from the full window,
behaves exactly like the loop that hands every successor the full
(-infinity, +infinity) window: updating `alpha` with `f32::min` and
`beta` with `f32::max` leaves them at -infinity and +infinity, so no
root successor is searched with a narrowed window or skipped. -/
theorem C10_root_window (gg : GameGlobals) (depth : Nat) (sts : List PaddedGameState)
    (utilities : List EVal) (tt : TT) :
    rootLoop gg depth sts EVal.ninf EVal.pinf utilities tt =
      fullWindowRootLoop gg depth sts utilities tt := by
  induction sts generalizing utilities tt with
  | nil => rfl
  | cons st rest ih =>
      simp only [rootLoop, fullWindowRootLoop, fmin_ninf, fmax_pinf]
      exact ih _ _

theorem ReachableG_stepD (gg : GameGlobals) (gs : GameState) (mov : Move)
    (h : ReachableG gg gs) (hres : result gs = none) (hmov : mov ∈ get_legal gs) :
    ReachableG gg (playD mov gs) := by
  obtain ⟨gs', hgs'⟩ := play_of_mem_get_legal gs mov hmov
  unfold playD
  rw [hgs']
  exact ReachableG.step h hres hmov hgs'

theorem c3S_reachable : ReachableG gg44 c3S := by
  have hc : c3S = playD ⟨3, 2⟩ (playD ⟨1, 3⟩ (playD ⟨2, 3⟩ (playD ⟨3, 3⟩
      (GameState.new gg44)))) := rfl
  have h0 : ReachableG gg44 (GameState.new gg44) := ReachableG.base
  have h1 := ReachableG_stepD _ _ ⟨3, 3⟩ h0 (by decide) (by decide)
  have h2 := ReachableG_stepD _ _ ⟨2, 3⟩ h1 (by decide) (by decide)
  have h3 := ReachableG_stepD _ _ ⟨1, 3⟩ h2 (by decide) (by decide)
  have h4 := ReachableG_stepD _ _ ⟨3, 2⟩ h3 (by decide) (by decide)
  rw [hc]
  exact h4

/-- C3: the claimed search soundness fails on a small board. The state
`c3S` is reached by four legal moves of the 4x4 configuration, yet
`min_max` at depth 2 with the full window and a fresh table returns 1
while the unpruned exhaustive minimax returns 0. The cause is the
`GameState::new` bug: the board is hard-coded 6x7, so the symmetry
counter (computed over the real 7-wide rows) can report a 4-column
position as symmetrical when it is not, and the symmetry pruning then
discards a root subtree that is not a mirror of any kept one. -/
theorem C3_min_max_diverges :
    ReachableG gg44 c3S ∧
      (min_max gg44 2 (PaddedGameState.new_from_game_state c3S) EVal.ninf EVal.pinf []).1 =
        EVal.fin 1 ∧
      plainMinimax gg44 2 (PaddedGameState.new_from_game_state c3S) = EVal.fin 0 :=
  ⟨c3S_reachable, by decide, by decide⟩

theorem disc_bne_comm (a b : Disc) : (a != b) = (b != a) := by
  rcases a with _ | p <;> rcases b with _ | q
  · rfl
  · rfl
  · rfl
  · rcases p with _ | _ <;> rcases q with _ | _ <;> decide

theorem countP_range_update (p q : Nat → Bool) (n j : Nat) (hj : j < n)
    (h : ∀ i, i < n → i ≠ j → p i = q i) :
    (List.range n).countP q + (if p j then 1 else 0) =
      (List.range n).countP p + (if q j then 1 else 0) := by
  induction n with
  | zero => omega
  | succ m ih =>
      rw [List.range_succ, List.countP_append, List.countP_append,
        List.countP_singleton, List.countP_singleton]
      by_cases hjm : j = m
      · subst hjm
        have hagree : (List.range j).countP p = (List.range j).countP q := by
          apply List.countP_congr
          intro i hi
          rw [List.mem_range] at hi
          rw [h i (by omega) (by omega)]
        rw [hagree]
        split_ifs <;> omega
      · have hpm : p m = q m := h m (by omega) (Ne.symm hjm)
        have hrec := ih (by omega) (fun i hi hij => h i (by omega) hij)
        rw [hpm]
        omega

theorem sum_range_update (f g : Nat → Nat) (n j : Nat) (hj : j < n)
    (h : ∀ i, i < n → i ≠ j → f i = g i) :
    ((List.range n).map g).sum + f j = ((List.range n).map f).sum + g j := by
  induction n with
  | zero => omega
  | succ m ih =>
      rw [List.range_succ, List.map_append, List.map_append, List.sum_append, List.sum_append]
      simp only [List.map_cons, List.map_nil, List.sum_cons, List.sum_nil]
      by_cases hjm : j = m
      · subst hjm
        have hagree : (List.range j).map f = (List.range j).map g := by
          apply List.map_congr_left
          intro i hi
          rw [List.mem_range] at hi
          exact h i (by omega) (by omega)
        rw [hagree]
        omega
      · have hfm : f m = g m := h m (by omega) (Ne.symm hjm)
        have hrec := ih (by omega) (fun i hi hij => h i (by omega) hij)
        rw [hfm]
        omega

theorem BadPair_persist (gs gs' : GameState) (mov : Move)
    (hwf : WF gs) (hr : mov.row < gs.rows) (hc : mov.col < gs.cols)
    (hcell : cellAt gs mov.row mov.col = none)
    (hplay : play mov gs = some gs') : BadPair gs → BadPair gs' := by
  rintro ⟨a, b, hab, hbb, h1, h2, h3⟩
  obtain ⟨-, hrows, hcols, -⟩ := play_fields gs gs' mov hplay
  have e1 : cellAt gs' a b = cellAt gs a b := by
    rw [cellAt_play gs gs' mov hwf hr hc hplay a b, if_neg]
    rintro ⟨ha, hb⟩
    rw [ha, hb, hcell] at h1
    simp at h1
  have e2 : cellAt gs' a (gs.cols - b - 1) = cellAt gs a (gs.cols - b - 1) := by
    rw [cellAt_play gs gs' mov hwf hr hc hplay a (gs.cols - b - 1), if_neg]
    rintro ⟨ha, hb⟩
    rw [ha, hb, hcell] at h2
    simp at h2
  refine ⟨a, b, by rw [hrows]; exact hab, by rw [hcols]; exact hbb, ?_, ?_, ?_⟩
  · rw [e1]; exact h1
  · rw [hcols, e2]; exact h2
  · rw [hcols, e1, e2]; exact h3

theorem mirrorPairDiffs_zero_iff_cells (gs : GameState) :
    mirrorPairDiffs gs = 0 ↔
      ∀ r, r < gs.rows → ∀ c, c < gs.cols / 2 →
        cellAt gs r c = cellAt gs r (gs.cols - c - 1) := by
  unfold mirrorPairDiffs
  rw [List.sum_eq_zero_iff]
  constructor
  · intro h r hr c hc
    have hrow := h _ (List.mem_map_of_mem _ (List.mem_range.mpr hr))
    rw [List.countP_eq_zero] at hrow
    have hcell := hrow c (List.mem_range.mpr hc)
    simp only [bne_iff_ne, not_not] at hcell
    exact hcell
  · intro h x hx
    rw [List.mem_map] at hx
    obtain ⟨r, hrmem, rfl⟩ := hx
    rw [List.mem_range] at hrmem
    rw [List.countP_eq_zero]
    intro c hcmem
    rw [List.mem_range] at hcmem
    simp only [bne_iff_ne, not_not]
    exact h r hrmem c hcmem

theorem row_mirror_of_cells (row : List Disc) (hlen : row.length = 7)
    (h : ∀ c, c < 7 → row.getD c none = row.getD (6 - c) none) :
    row = row.reverse := by
  apply List.ext_getElem (by rw [List.length_reverse])
  intro i h1 h2
  rw [List.getElem_reverse]
  have hi7 : i < 7 := by omega
  have hgd := h i hi7
  rw [List.getD_eq_getElem?_getD, List.getD_eq_getElem?_getD,
    List.getElem?_eq_getElem (show i < row.length by omega),
    List.getElem?_eq_getElem (show 6 - i < row.length by omega)] at hgd
  simp only [Option.getD_some] at hgd
  have hidx : row.length - 1 - i = 6 - i := by omega
  simp only [hidx]
  exact hgd

theorem cells_of_row_mirror (row : List Disc) (hlen : row.length = 7)
    (h : row = row.reverse) (c : Nat) (hc : c < 7) :
    row.getD c none = row.getD (6 - c) none := by
  conv_lhs => rw [h]
  rw [List.getD_eq_getElem?_getD, List.getD_eq_getElem?_getD,
    List.getElem?_eq_getElem (show c < row.reverse.length by rw [List.length_reverse]; omega),
    List.getElem?_eq_getElem (show 6 - c < row.length by omega)]
  simp only [Option.getD_some]
  rw [List.getElem_reverse]
  have hidx : row.length - 1 - c = 6 - c := by omega
  simp only [hidx]

theorem board_mirror_iff_cells (gs : GameState) (hwf : WF gs)
    (h6 : gs.rows = 6) (h7 : gs.cols = 7) :
    gs.board = mirrorBoard gs.board ↔
      ∀ r, r < gs.rows → ∀ c, c < gs.cols / 2 →
        cellAt gs r c = cellAt gs r (gs.cols - c - 1) := by
  constructor
  · intro hb r hr c hc
    rw [h7] at hc
    have hrowlen : (gs.board.getD r []).length = gs.cols := rowLen gs hwf r hr
    have hrlt : r < gs.board.length := by rw [hwf.1, h6]; rw [h6] at hr; exact hr
    have hmap : (mirrorBoard gs.board).getD r [] = (gs.board.getD r []).reverse := by
      unfold mirrorBoard
      simp only [List.getD_eq_getElem?_getD, List.getElem?_map, List.getElem?_eq_getElem hrlt]
      rfl
    have hrowmirror : gs.board.getD r [] = (gs.board.getD r []).reverse := by
      conv_lhs => rw [hb]
      exact hmap
    have hbridge := cells_of_row_mirror (gs.board.getD r [])
      (by rw [hrowlen, h7]) hrowmirror c (by omega)
    unfold cellAt
    rw [show gs.cols - c - 1 = 6 - c from by omega]
    exact hbridge
  · intro h
    apply List.ext_getElem
    · unfold mirrorBoard
      rw [List.length_map]
    · intro r h1 h2
      have hr6 : r < gs.rows := by rw [← hwf.1]; exact h1
      have hrowlen : (gs.board.getD r []).length = gs.cols := rowLen gs hwf r hr6
      have hgd : gs.board.getD r [] = gs.board[r] := by
        rw [List.getD_eq_getElem?_getD, List.getElem?_eq_getElem h1]
        rfl
      have hcells7 : ∀ c, c < 7 →
          (gs.board.getD r []).getD c none = (gs.board.getD r []).getD (6 - c) none := by
        intro c hc
        by_cases hlt : c < 3
        · have hcc := h r hr6 c (by rw [h7]; omega)
          unfold cellAt at hcc
          rw [show gs.cols - c - 1 = 6 - c from by omega] at hcc
          exact hcc
        · by_cases heq : c = 3
          · subst heq
            norm_num
          · have hcc := h r hr6 (6 - c) (by rw [h7]; omega)
            unfold cellAt at hcc
            rw [show gs.cols - (6 - c) - 1 = c from by omega] at hcc
            exact hcc.symm
      have hrm := row_mirror_of_cells (gs.board.getD r [])
        (by rw [hrowlen, h7]) hcells7
      unfold mirrorBoard
      rw [List.getElem_map, ← hgd]
      exact hrm

theorem mirrorPairDiffs_eval (gs : GameState) (h6 : gs.rows = 6) (h7 : gs.cols = 7) :
    mirrorPairDiffs gs =
      ((List.range 6).map fun r =>
        (List.range 3).countP fun c => cellAt gs r c != cellAt gs r (6 - c)).sum := by
  unfold mirrorPairDiffs
  rw [h6, h7]
  have hmd : ∀ x : Nat, 7 - x - 1 = 6 - x := fun x => by omega
  simp only [hmd]

theorem mirrorPairDiffs_play_center (gs gs' : GameState) (mov : Move)
    (hwf : WF gs) (h6 : gs.rows = 6) (h7 : gs.cols = 7)
    (hc3 : mov.col = 3) (hr : mov.row < 6)
    (hplay : play mov gs = some gs') :
    mirrorPairDiffs gs' = mirrorPairDiffs gs := by
  obtain ⟨-, hrows, hcols, -⟩ := play_fields gs gs' mov hplay
  have hr6 : mov.row < gs.rows := by omega
  have hc7 : mov.col < gs.cols := by omega
  rw [mirrorPairDiffs_eval gs' (by omega) (by omega), mirrorPairDiffs_eval gs h6 h7]
  congr 1
  apply List.map_congr_left
  intro r hrmem
  apply List.countP_congr
  intro c hcmem
  rw [List.mem_range] at hcmem
  have e1 : cellAt gs' r c = cellAt gs r c :=
    cellAt_play_ne gs gs' mov hwf hr6 hc7 hplay (r, c)
      (by intro hcon; rw [Prod.mk.injEq] at hcon; omega)
  have e2 : cellAt gs' r (6 - c) = cellAt gs r (6 - c) :=
    cellAt_play_ne gs gs' mov hwf hr6 hc7 hplay (r, 6 - c)
      (by intro hcon; rw [Prod.mk.injEq] at hcon; omega)
  simp only [e1, e2]

theorem mirrorPairDiffs_play (gs gs' : GameState) (mov : Move)
    (hwf : WF gs) (h6 : gs.rows = 6) (h7 : gs.cols = 7)
    (hc3 : mov.col ≠ 3) (hr : mov.row < 6) (hc : mov.col < 7)
    (hplay : play mov gs = some gs') :
    mirrorPairDiffs gs' +
        (if cellAt gs mov.row mov.col != cellAt gs mov.row (6 - mov.col) then 1 else 0) =
      mirrorPairDiffs gs +
        (if cellAt gs' mov.row mov.col != cellAt gs' mov.row (6 - mov.col) then 1 else 0) := by
  obtain ⟨-, hrows, hcols, -⟩ := play_fields gs gs' mov hplay
  have hr6 : mov.row < gs.rows := by omega
  have hc7 : mov.col < gs.cols := by omega
  set cp := if mov.col < 3 then mov.col else 6 - mov.col with hcpdef
  have hcp3 : cp < 3 := by rw [hcpdef]; split <;> omega
  have hbridge : ∀ hst : GameState,
      (cellAt hst mov.row cp != cellAt hst mov.row (6 - cp)) =
        (cellAt hst mov.row mov.col != cellAt hst mov.row (6 - mov.col)) := by
    intro hst
    rw [hcpdef]
    by_cases hlt : mov.col < 3
    · rw [if_pos hlt]
    · rw [if_neg hlt]
      rw [show 6 - (6 - mov.col) = mov.col from by omega, disc_bne_comm]
  have hinner : (List.range 3).countP
        (fun c => cellAt gs' mov.row c != cellAt gs' mov.row (6 - c)) +
        (if cellAt gs mov.row cp != cellAt gs mov.row (6 - cp) then 1 else 0) =
      (List.range 3).countP
        (fun c => cellAt gs mov.row c != cellAt gs mov.row (6 - c)) +
        (if cellAt gs' mov.row cp != cellAt gs' mov.row (6 - cp) then 1 else 0) := by
    apply countP_range_update
      (fun c => cellAt gs mov.row c != cellAt gs mov.row (6 - c))
      (fun c => cellAt gs' mov.row c != cellAt gs' mov.row (6 - c)) 3 cp hcp3
    intro i hi hij
    have hine : i ≠ mov.col ∧ 6 - i ≠ mov.col := by
      by_cases hlt : mov.col < 3
      · rw [hcpdef, if_pos hlt] at hij
        omega
      · rw [hcpdef, if_neg hlt] at hij
        omega
    have e1 : cellAt gs' mov.row i = cellAt gs mov.row i :=
      cellAt_play_ne gs gs' mov hwf hr6 hc7 hplay (mov.row, i)
        (by intro hcon; rw [Prod.mk.injEq] at hcon; exact hine.1 hcon.2.symm)
    have e2 : cellAt gs' mov.row (6 - i) = cellAt gs mov.row (6 - i) :=
      cellAt_play_ne gs gs' mov hwf hr6 hc7 hplay (mov.row, 6 - i)
        (by intro hcon; rw [Prod.mk.injEq] at hcon; exact hine.2 hcon.2.symm)
    simp only [e1, e2]
  have houter : (((List.range 6).map fun r => (List.range 3).countP fun c =>
        cellAt gs' r c != cellAt gs' r (6 - c)).sum) +
        ((List.range 3).countP fun c => cellAt gs mov.row c != cellAt gs mov.row (6 - c)) =
      (((List.range 6).map fun r => (List.range 3).countP fun c =>
        cellAt gs r c != cellAt gs r (6 - c)).sum) +
        ((List.range 3).countP fun c => cellAt gs' mov.row c != cellAt gs' mov.row (6 - c)) := by
    apply sum_range_update
      (fun r => (List.range 3).countP fun c => cellAt gs r c != cellAt gs r (6 - c))
      (fun r => (List.range 3).countP fun c => cellAt gs' r c != cellAt gs' r (6 - c))
      6 mov.row hr
    intro i hi hij
    apply List.countP_congr
    intro c hcmem
    have e1 : cellAt gs' i c = cellAt gs i c :=
      cellAt_play_ne gs gs' mov hwf hr6 hc7 hplay (i, c)
        (by intro hcon; rw [Prod.mk.injEq] at hcon; exact hij hcon.1.symm)
    have e2 : cellAt gs' i (6 - c) = cellAt gs i (6 - c) :=
      cellAt_play_ne gs gs' mov hwf hr6 hc7 hplay (i, 6 - c)
        (by intro hcon; rw [Prod.mk.injEq] at hcon; exact hij hcon.1.symm)
    simp only [e1, e2]
  rw [mirrorPairDiffs_eval gs' (by omega) (by omega), mirrorPairDiffs_eval gs h6 h7]
  have hbg := hbridge gs
  have hbg' := hbridge gs'
  rw [hbg, hbg'] at hinner
  omega

theorem C2_inv (p : PaddedGameState) (h : ReachableP p) :
    WF p.gs ∧ p.gs.rows = 6 ∧ p.gs.cols = 7 ∧
      (mirrorPairDiffs p.gs : Int) ≤ p.unsymmetrical_count ∧
      ((mirrorPairDiffs p.gs : Int) < p.unsymmetrical_count → BadPair p.gs) := by
  induction h with
  | base =>
      refine ⟨⟨rfl, ?_⟩, rfl, rfl, by decide, ?_⟩
      · intro row hrow
        simp only [PaddedGameState.new, GameState.new, List.mem_replicate] at hrow
        rw [hrow.2]
        rfl
      · intro hlt
        exact absurd hlt (by decide)
  | @step q mov hq hmov ih =>
      obtain ⟨hwf, h6, h7, hle, hstrict⟩ := ih
      obtain ⟨hcb, hrb, hcell, -⟩ := (mem_get_legal q.gs mov).mp hmov
      obtain ⟨gs', hplay⟩ := play_of_mem_get_legal q.gs mov hmov
      have hgseq : (PaddedGameState.next q mov gg67).gs = gs' := by
        show (play mov q.gs).getD q.gs = gs'
        rw [hplay]
        rfl
      have hcnt : (PaddedGameState.next q mov gg67).unsymmetrical_count =
          q.unsymmetrical_count + get_unsymmetrical_count_diff q.gs mov := rfl
      obtain ⟨-, hrows, hcols, -⟩ := play_fields q.gs gs' mov hplay
      have hwf' : WF gs' := play_WF q.gs gs' mov hwf hrb hplay
      have hr6 : mov.row < 6 := by omega
      have hc7 : mov.col < 7 := by omega
      have hdiff : get_unsymmetrical_count_diff q.gs mov =
          if mov.col = 3 then 0
          else if some q.gs.turn = cellAt q.gs mov.row (6 - mov.col) then -1 else 1 := by
        unfold get_unsymmetrical_count_diff
        rw [h7, show (7 : Nat) - mov.col - 1 = 6 - mov.col from by omega]
        norm_num
      rw [hgseq, hcnt, hdiff]
      have hmain : (mirrorPairDiffs gs' : Int) ≤ q.unsymmetrical_count +
            (if mov.col = 3 then 0
             else if some q.gs.turn = cellAt q.gs mov.row (6 - mov.col) then -1 else 1) ∧
          ((mirrorPairDiffs gs' : Int) < q.unsymmetrical_count +
            (if mov.col = 3 then 0
             else if some q.gs.turn = cellAt q.gs mov.row (6 - mov.col) then -1 else 1) →
            BadPair gs') := by
        by_cases hc3 : mov.col = 3
        · have hdsame := mirrorPairDiffs_play_center q.gs gs' mov hwf h6 h7 hc3 hr6 hplay
          rw [if_pos hc3, hdsame]
          constructor
          · omega
          · intro hlt
            exact BadPair_persist q.gs gs' mov hwf (by omega) (by omega) hcell hplay
              (hstrict (by omega))
        · have hpairs := mirrorPairDiffs_play q.gs gs' mov hwf h6 h7 hc3 hr6 hc7 hplay
          have hpiv : cellAt gs' mov.row mov.col = some q.gs.turn :=
            cellAt_play_pivot q.gs gs' mov hwf (by omega) (by omega) hplay
          have hmir : cellAt gs' mov.row (6 - mov.col) = cellAt q.gs mov.row (6 - mov.col) :=
            cellAt_play_ne q.gs gs' mov hwf (by omega) (by omega) hplay (mov.row, 6 - mov.col)
              (by intro hcon; rw [Prod.mk.injEq] at hcon; omega)
          rw [if_neg hc3]
          rw [hcell, hpiv, hmir] at hpairs
          rcases hm : cellAt q.gs mov.row (6 - mov.col) with _ | u
          · rw [hm] at hpairs
            have hb1 : ((none : Disc) != (none : Disc)) = false := rfl
            have hb2 : (some q.gs.turn != (none : Disc)) = true := rfl
            rw [hb1, hb2] at hpairs
            simp at hpairs
            rw [if_neg (by simp)]
            constructor
            · omega
            · intro hlt
              exact BadPair_persist q.gs gs' mov hwf (by omega) (by omega) hcell hplay
                (hstrict (by omega))
          · rw [hm] at hpairs
            have hbefore : ((none : Disc) != some u) = true := rfl
            rw [hbefore] at hpairs
            by_cases hut : q.gs.turn = u
            · rw [if_pos (by rw [hut])]
              have hafter : (some q.gs.turn != some u) = false := by
                rw [hut]
                exact bne_self_eq_false _
              rw [hafter] at hpairs
              simp at hpairs
              constructor
              · omega
              · intro hlt
                exact BadPair_persist q.gs gs' mov hwf (by omega) (by omega) hcell hplay
                  (hstrict (by omega))
            · rw [if_neg (fun hcon => hut (Option.some.inj hcon))]
              have hafter : (some q.gs.turn != some u) = true := by
                rw [bne_iff_ne]
                intro hcon
                exact hut (Option.some.inj hcon)
              rw [hafter] at hpairs
              simp at hpairs
              have hbad : BadPair gs' := by
                rcases Nat.lt_or_ge mov.col 3 with hlt3 | hge3
                · refine ⟨mov.row, mov.col, by omega, by omega, ?_, ?_, ?_⟩
                  · rw [hpiv]; rfl
                  · rw [show gs'.cols - mov.col - 1 = 6 - mov.col from by omega, hmir, hm]
                    rfl
                  · rw [show gs'.cols - mov.col - 1 = 6 - mov.col from by omega, hpiv, hmir, hm]
                    exact fun hcon => hut (Option.some.inj hcon)
                · refine ⟨mov.row, 6 - mov.col, by omega, by omega, ?_, ?_, ?_⟩
                  · rw [hmir, hm]; rfl
                  · rw [show gs'.cols - (6 - mov.col) - 1 = mov.col from by omega, hpiv]
                    rfl
                  · rw [show gs'.cols - (6 - mov.col) - 1 = mov.col from by omega, hmir, hm, hpiv]
                    exact fun hcon => hut (Option.some.inj hcon).symm
              exact ⟨by omega, fun _ => hbad⟩
      exact ⟨hwf', by omega, by omega, hmain.1, hmain.2⟩

/-- C2 (amended): after any sequence of legal moves from the fresh 6x7
padded state, the incrementally maintained counter is at least the
number of differing mirror-column pairs, and it is zero exactly when the
board equals its own left-right mirror image. The claimed exact equality
is the amendment's casualty: a move whose mirror cell holds the opponent
adds 1 to the counter although that pair already differed, as the
separate counterexample shows; the zero-iff-symmetric part survives
because such a drift creates a both-occupied differing pair that keeps
the counter and the true count positive forever. -/
theorem C2_symmetry_counter (p : PaddedGameState) (h : ReachableP p) :
    (mirrorPairDiffs p.gs : Int) ≤ p.unsymmetrical_count ∧
      (p.unsymmetrical_count = 0 ↔ p.gs.board = mirrorBoard p.gs.board) := by
  obtain ⟨hwf, h6, h7, hle, hstrict⟩ := C2_inv p h
  refine ⟨hle, ?_, ?_⟩
  · intro h0
    have hd0 : mirrorPairDiffs p.gs = 0 := by omega
    exact (board_mirror_iff_cells p.gs hwf h6 h7).mpr
      ((mirrorPairDiffs_zero_iff_cells p.gs).mp hd0)
  · intro hb
    have hd0 : mirrorPairDiffs p.gs = 0 :=
      (mirrorPairDiffs_zero_iff_cells p.gs).mpr
        ((board_mirror_iff_cells p.gs hwf h6 h7).mp hb)
    by_contra hne
    have hbp := hstrict (by omega)
    obtain ⟨a, b, ha, hb2, -, -, hne2⟩ := hbp
    exact hne2 ((mirrorPairDiffs_zero_iff_cells p.gs).mp hd0 a ha b hb2)

/-- C2 counterexample: after the legal moves (5,0) and (5,6) the
incremental counter reads 2, while exactly one mirror pair of the board
differs — the (5,6) update sees the opponent in the mirrored cell (5,0)
and adds 1, although that pair already counted as differing. -/
theorem C2_cex :
    ReachableP c2P ∧ c2P.unsymmetrical_count = 2 ∧ mirrorPairDiffs c2P.gs = 1 :=
  ⟨ReachableP.step (ReachableP.step ReachableP.base (by decide)) (by decide),
    by decide, by decide⟩

theorem C2_witness :
    (mirrorPairDiffs (PaddedGameState.new gg67).gs : Int) ≤
        (PaddedGameState.new gg67).unsymmetrical_count ∧
      ((PaddedGameState.new gg67).unsymmetrical_count = 0 ↔
        (PaddedGameState.new gg67).gs.board = mirrorBoard (PaddedGameState.new gg67).gs.board) :=
  C2_symmetry_counter (PaddedGameState.new gg67) ReachableP.base

end ConnectFour
